import Mathlib

/-!
Verification development for the induction/recurrence-variable descriptor
analysis (`IVDescriptors.cpp`): a shallow embedding of the dataflow-graph
data model and of the reduction matcher (`AddReductionVar`), the reduction
kind prober (`isReductionPHI`), the first-order-recurrence sinker
(`isFirstOrderRecurrence`), the induction classifier (`isInductionPHI`)
and the identity-element table (`getRecurrenceIdentity`), together with
theorems settling the specification claims about them.
-/

namespace IVD

/-- Reduction kinds, mirroring the `RecurKind` enumeration. -/
inductive RecurKind
  | none | add | mul | or | and | xor
  | smax | smin | umax | umin
  | fadd | fmul | fmax | fmin
deriving DecidableEq, Repr

/-- Mirrors `RecurrenceDescriptor::isIntegerRecurrenceKind`. -/
def isIntegerRecurrenceKind (k : RecurKind) : Bool :=
  match k with
  | .add | .mul | .or | .and | .xor | .smax | .smin | .umax | .umin => true
  | _ => false

/-- Mirrors `RecurrenceDescriptor::isFloatingPointRecurrenceKind`. -/
def isFloatingPointRecurrenceKind (k : RecurKind) : Bool :=
  k != RecurKind.none && !isIntegerRecurrenceKind k

/-- Mirrors `RecurrenceDescriptor::isArithmeticRecurrenceKind`. -/
def isArithmeticRecurrenceKind (k : RecurKind) : Bool :=
  match k with
  | .add | .mul | .fadd | .fmul => true
  | _ => false

/-- Modelled from the spec: the integer min/max kind class used by the
matcher (`isIntMinMaxRecurrenceKind`, declared in the descriptor header,
which is not part of the analysed source file). -/
def isIntMinMaxRecurrenceKind (k : RecurKind) : Bool :=
  match k with
  | .umin | .umax | .smin | .smax => true
  | _ => false

/-- Modelled from the spec: the floating-point min/max kind class
(`isFPMinMaxRecurrenceKind`, declared in the descriptor header). -/
def isFPMinMaxRecurrenceKind (k : RecurKind) : Bool :=
  match k with
  | .fmin | .fmax => true
  | _ => false

/-- Modelled from the spec: any min/max kind (`isMinMaxRecurrenceKind`). -/
def isMinMaxRecurrenceKind (k : RecurKind) : Bool :=
  isIntMinMaxRecurrenceKind k || isFPMinMaxRecurrenceKind k

/-- Fast-math flags carried by floating-point instructions. -/
structure FastMathFlags where
  allowReassoc : Bool := false
  noNaNs : Bool := false
  noInfs : Bool := false
  noSignedZeros : Bool := false
  allowReciprocal : Bool := false
  allowContract : Bool := false
  approxFunc : Bool := false
deriving DecidableEq, Repr

/-- `FastMathFlags::getFast()`: all flags set. -/
def FastMathFlags.getFast : FastMathFlags :=
  ⟨true, true, true, true, true, true, true⟩

/-- Pointwise intersection of fast-math flags (the `&=` fold). -/
def FastMathFlags.inter (a b : FastMathFlags) : FastMathFlags :=
  ⟨a.allowReassoc && b.allowReassoc, a.noNaNs && b.noNaNs,
   a.noInfs && b.noInfs, a.noSignedZeros && b.noSignedZeros,
   a.allowReciprocal && b.allowReciprocal, a.allowContract && b.allowContract,
   a.approxFunc && b.approxFunc⟩

/-- Pointwise union of fast-math flags (the `|=` on a min/max select). -/
def FastMathFlags.union (a b : FastMathFlags) : FastMathFlags :=
  ⟨a.allowReassoc || b.allowReassoc, a.noNaNs || b.noNaNs,
   a.noInfs || b.noInfs, a.noSignedZeros || b.noSignedZeros,
   a.allowReciprocal || b.allowReciprocal, a.allowContract || b.allowContract,
   a.approxFunc || b.approxFunc⟩

/-- `isFast()`: all of the individual fast-math flags are set. -/
def FastMathFlags.isFast (a : FastMathFlags) : Bool :=
  a.allowReassoc && a.noNaNs && a.noInfs && a.noSignedZeros &&
  a.allowReciprocal && a.allowContract && a.approxFunc

/-- Instruction opcodes used by the analysis. -/
inductive Opcode
  | phi | iadd | isub | imul | iand | ior | ixor
  | fadd | fsub | fmul | fdiv
  | select | icmp | fcmp
  | trunc | zext | sext
  | load | store | br | call | other
deriving DecidableEq, Repr

/-- `Instruction::isCommutative` (opcode-driven). -/
def Opcode.isCommutative (o : Opcode) : Bool :=
  match o with
  | .iadd | .imul | .iand | .ior | .ixor | .fadd | .fmul => true
  | _ => false

/-- `isa<CastInst>`: the cast opcodes modelled here. -/
def Opcode.isCast (o : Opcode) : Bool :=
  match o with
  | .trunc | .zext | .sext => true
  | _ => false

/-- `BinaryOperator` opcodes among the modelled set. -/
def Opcode.isBinaryOp (o : Opcode) : Bool :=
  match o with
  | .iadd | .isub | .imul | .iand | .ior | .ixor
  | .fadd | .fsub | .fmul | .fdiv => true
  | _ => false

/-- Comparison predicates (`CmpInst::Predicate`), integer and FP. -/
inductive CmpPred
  | ieq | ine | iugt | iuge | iult | iule | isgt | isge | islt | isle
  | foeq | fogt | foge | folt | fole | fone | ford
  | fueq | fugt | fuge | fult | fule | fune | funo
deriving DecidableEq, Repr

/-- `CmpInst::getInversePredicate`. -/
def CmpPred.inverse (p : CmpPred) : CmpPred :=
  match p with
  | .ieq => .ine | .ine => .ieq
  | .iugt => .iule | .iuge => .iult | .iult => .iuge | .iule => .iugt
  | .isgt => .isle | .isge => .islt | .islt => .isge | .isle => .isgt
  | .foeq => .fune | .fune => .foeq
  | .fogt => .fule | .foge => .fult | .folt => .fuge | .fole => .fugt
  | .fueq => .fone | .fone => .fueq
  | .fugt => .fole | .fuge => .folt | .fult => .foge | .fule => .fogt
  | .ford => .funo | .funo => .ford

/-- Value types; a pointer type records whether its pointee is sized and
the pointee's alloc size in bytes (the only pointee facts the analysis
consults). -/
inductive LLVMType
  | intT (bits : Nat)
  | halfT | floatT | doubleT
  | ptrT (pointeeSized : Bool) (pointeeAllocSize : Nat)
  | voidT
deriving DecidableEq, Repr

/-- `Type::isFloatingPointTy` restricted to the modelled types. -/
def LLVMType.isFloatingPointTy (t : LLVMType) : Bool :=
  match t with
  | .halfT | .floatT | .doubleT => true
  | _ => false

/-- `Type::isIntegerTy`. -/
def LLVMType.isIntegerTy (t : LLVMType) : Bool :=
  match t with
  | .intT _ => true
  | _ => false

/-- `Type::isPointerTy`. -/
def LLVMType.isPointerTy (t : LLVMType) : Bool :=
  match t with
  | .ptrT _ _ => true
  | _ => false

/-- `DataLayout::getTypeSizeInBits` for the modelled types. -/
def LLVMType.sizeInBits (t : LLVMType) : Nat :=
  match t with
  | .intT n => n
  | .halfT => 16
  | .floatT => 32
  | .doubleT => 64
  | .ptrT _ _ => 64
  | .voidT => 0

/-- SSA values: instruction results (by id), typed integer and FP
constants (FP constants carry an opaque tag), and function arguments. -/
inductive LLVMValue
  | inst (id : Nat)
  | constInt (ty : LLVMType) (val : Int)
  | constFP (ty : LLVMType) (tag : Int)
  | arg (ty : LLVMType) (n : Nat)
deriving DecidableEq, Repr

/-- Instructions: opcode, result type, operand list, enclosing block, and
the attribute bits the analysis reads.  For a phi, `incomingBlocks` lists
the incoming blocks positionally parallel to `operands`. -/
structure Instruction where
  opcode : Opcode
  ty : LLVMType
  operands : List LLVMValue
  parent : Nat
  fmf : FastMathFlags := {}
  pred : CmpPred := .ieq
  incomingBlocks : List Nat := []
  readsMem : Bool := false
  sideEffects : Bool := false
  terminator : Bool := false
deriving DecidableEq, Repr

/-- A program: instructions keyed by id, listed in program order. -/
structure Program where
  insts : List (Nat × Instruction)
deriving DecidableEq, Repr

/-- Look an instruction up by id. -/
def Program.instOf (p : Program) (i : Nat) : Option Instruction :=
  p.insts.lookup i

/-- The users of instruction `i`: every instruction with `i` among its
operands, one entry per use, enumerated in program order (the embedding's
deterministic rendering of the use list). -/
def Program.users (p : Program) (i : Nat) : List Nat :=
  p.insts.flatMap fun ui =>
    ui.2.operands.filterMap fun o =>
      if o = LLVMValue.inst i then some ui.1 else none

/-- Opcode of an instruction id, when present. -/
def Program.opcodeOf (p : Program) (i : Nat) : Option Opcode :=
  (p.instOf i).map Instruction.opcode

/-- A loop: member blocks, header, and (optional) preheader and latch. -/
structure LoopInfo where
  blocks : List Nat
  header : Nat
  preheader : Option Nat
  latch : Option Nat
deriving DecidableEq, Repr

/-- `Loop::contains` on blocks. -/
def LoopInfo.containsBlock (l : LoopInfo) (b : Nat) : Bool :=
  l.blocks.contains b

/-- `PHINode::getIncomingValueForBlock`. -/
def Instruction.incomingValueForBlock (i : Instruction) (b : Nat) : Option LLVMValue :=
  (i.incomingBlocks.zip i.operands).lookup b

/-- Transient match state (`RecurrenceDescriptor::InstDesc`): matched flag,
last pattern instruction, running kind, and the exact-FP-math instruction
slot. -/
structure InstDesc where
  isRecurrence : Bool
  patternInst : Option Nat
  recKind : RecurKind
  exactFPMathInst : Option Nat
deriving DecidableEq, Repr

/-- Modelled from the spec: the unsigned-min predicate class of the
`m_UMin` matcher (pattern-match header, not in the analysed source). -/
def isUMinPred : CmpPred → Bool
  | .iult | .iule => true
  | _ => false

/-- Modelled from the spec: predicate class of `m_UMax`. -/
def isUMaxPred : CmpPred → Bool
  | .iugt | .iuge => true
  | _ => false

/-- Modelled from the spec: predicate class of `m_SMax`. -/
def isSMaxPred : CmpPred → Bool
  | .isgt | .isge => true
  | _ => false

/-- Modelled from the spec: predicate class of `m_SMin`. -/
def isSMinPred : CmpPred → Bool
  | .islt | .isle => true
  | _ => false

/-- Modelled from the spec: predicate class of `m_OrdFMin`. -/
def isOrdFMinPred : CmpPred → Bool
  | .folt | .fole => true
  | _ => false

/-- Modelled from the spec: predicate class of `m_OrdFMax`. -/
def isOrdFMaxPred : CmpPred → Bool
  | .fogt | .foge => true
  | _ => false

/-- Modelled from the spec: predicate class of `m_UnordFMin`. -/
def isUnordFMinPred : CmpPred → Bool
  | .fult | .fule => true
  | _ => false

/-- Modelled from the spec: predicate class of `m_UnordFMax`. -/
def isUnordFMaxPred : CmpPred → Bool
  | .fugt | .fuge => true
  | _ => false

/-- Modelled from the spec: the `MaxMin_match` select-of-compare matcher
(pattern-match header).  The select's values must be exactly the compare's
operands (in either order); the effective predicate is the compare's
predicate, inverted when the true value sits on the compare's right. -/
def maxMinMatch (p : Program) (selI : Instruction) (needFCmp : Bool)
    (predOk : CmpPred → Bool) : Bool :=
  match selI.operands with
  | [c, t, f] =>
    (match c with
     | .inst cid =>
       (match p.instOf cid with
        | some ci =>
          (if needFCmp then ci.opcode == .fcmp else ci.opcode == .icmp) &&
          (match ci.operands with
           | [l, r] =>
             ((t == l && f == r) || (t == r && f == l)) &&
             predOk (if l == t then ci.pred else ci.pred.inverse)
           | _ => false)
        | none => false)
     | _ => false)
  | _ => false

/-- Is this instruction a select whose condition is a compare with a
single use (the guard of the min/max select pattern)? -/
def selHasOneUseCmpCond (p : Program) (selI : Instruction) : Bool :=
  selI.opcode == .select &&
  (match selI.operands with
   | [c, _, _] =>
     (match c with
      | .inst cid =>
        (match p.instOf cid with
         | some ci =>
           (ci.opcode == .icmp || ci.opcode == .fcmp) &&
           (p.users cid).length == 1
         | none => false)
      | _ => false)
   | _ => false)

/-- Mirrors `RecurrenceDescriptor::isMinMaxSelectCmpPattern`: from a
one-use compare, advance to its select user; from a select over a one-use
compare, recognize the min/max idioms in the source's order. -/
def isMinMaxSelectCmpPattern (p : Program) (iid : Nat) (prev : InstDesc) : InstDesc :=
  let advanced : Option Nat :=
    match p.instOf iid with
    | some ii =>
      if (ii.opcode == .icmp || ii.opcode == .fcmp) && (p.users iid).length == 1 then
        match (p.users iid).head? with
        | some uid =>
          match p.instOf uid with
          | some ui => if ui.opcode == .select then some uid else none
          | none => none
        | none => none
      else none
    | none => none
  match advanced with
  | some selId => ⟨true, some selId, prev.recKind, none⟩
  | none =>
    match p.instOf iid with
    | none => ⟨false, some iid, .none, none⟩
    | some ii =>
      if !selHasOneUseCmpCond p ii then ⟨false, some iid, .none, none⟩
      else if maxMinMatch p ii false isUMinPred then ⟨true, some iid, .umin, none⟩
      else if maxMinMatch p ii false isUMaxPred then ⟨true, some iid, .umax, none⟩
      else if maxMinMatch p ii false isSMaxPred then ⟨true, some iid, .smax, none⟩
      else if maxMinMatch p ii false isSMinPred then ⟨true, some iid, .smin, none⟩
      else if maxMinMatch p ii true isOrdFMinPred then ⟨true, some iid, .fmin, none⟩
      else if maxMinMatch p ii true isOrdFMaxPred then ⟨true, some iid, .fmax, none⟩
      else if maxMinMatch p ii true isUnordFMinPred then ⟨true, some iid, .fmin, none⟩
      else if maxMinMatch p ii true isUnordFMaxPred then ⟨true, some iid, .fmax, none⟩
      else ⟨false, some iid, .none, none⟩

/-- Is this value a phi instruction of the program? -/
def isPHIValue (p : Program) (v : LLVMValue) : Bool :=
  match v with
  | .inst i =>
    (match p.instOf i with
     | some ii => ii.opcode == .phi
     | none => false)
  | _ => false

/-- Mirrors `RecurrenceDescriptor::isConditionalRdxPattern`: a select over
a one-use compare whose values are exactly one phi and one fast
floating-point binary operation of the kind's opcode. -/
def isConditionalRdxPattern (p : Program) (kind : RecurKind) (iid : Nat) : InstDesc :=
  match p.instOf iid with
  | none => ⟨false, some iid, .none, none⟩
  | some si =>
    if si.opcode != .select then ⟨false, some iid, .none, none⟩
    else
      match si.operands with
      | [c, tv, fv] =>
        let condOk :=
          match c with
          | .inst cid =>
            (match p.instOf cid with
             | some ci =>
               (ci.opcode == .icmp || ci.opcode == .fcmp) &&
               (p.users cid).length == 1
             | none => false)
          | _ => false
        if !condOk then ⟨false, some iid, .none, none⟩
        else if (isPHIValue p tv && isPHIValue p fv) ||
                (!isPHIValue p tv && !isPHIValue p fv) then ⟨false, some iid, .none, none⟩
        else
          let i1 : Option Instruction :=
            match (if isPHIValue p tv then fv else tv) with
            | .inst j => p.instOf j
            | _ => none
          match i1 with
          | none => ⟨false, some iid, .none, none⟩
          | some i1I =>
            if !i1I.opcode.isBinaryOp then ⟨false, some iid, .none, none⟩
            else if (i1I.opcode == .fadd || i1I.opcode == .fsub) && i1I.fmf.isFast then
              ⟨kind == .fadd, some iid, .none, none⟩
            else if i1I.opcode == .fmul && i1I.fmf.isFast then
              ⟨kind == .fmul, some iid, .none, none⟩
            else ⟨false, some iid, .none, none⟩
      | _ => ⟨false, some iid, .none, none⟩

/-- `isa<FPMathOperator>` for the modelled opcodes. -/
def isFPMathOp (ii : Instruction) : Bool :=
  match ii.opcode with
  | .fadd | .fsub | .fmul | .fdiv | .fcmp => true
  | .phi | .select | .call => ii.ty.isFloatingPointTy
  | _ => false

/-- Mirrors `RecurrenceDescriptor::isRecurrenceInstr`, the per-instruction
reduction pattern classifier. -/
def isRecurrenceInstr (p : Program) (iid : Nat) (kind : RecurKind)
    (prev : InstDesc) (fmf : FastMathFlags) : InstDesc :=
  match p.instOf iid with
  | none => ⟨false, some iid, .none, none⟩
  | some ii =>
    match ii.opcode with
    | .phi => ⟨true, some iid, prev.recKind, prev.exactFPMathInst⟩
    | .isub | .iadd => ⟨kind == .add, some iid, .none, none⟩
    | .imul => ⟨kind == .mul, some iid, .none, none⟩
    | .iand => ⟨kind == .and, some iid, .none, none⟩
    | .ior => ⟨kind == .or, some iid, .none, none⟩
    | .ixor => ⟨kind == .xor, some iid, .none, none⟩
    | .fdiv | .fmul =>
      ⟨kind == .fmul, some iid, .none, if ii.fmf.allowReassoc then none else some iid⟩
    | .fsub | .fadd =>
      ⟨kind == .fadd, some iid, .none, if ii.fmf.allowReassoc then none else some iid⟩
    | .select =>
      if kind == .fadd || kind == .fmul then isConditionalRdxPattern p kind iid
      else if isIntMinMaxRecurrenceKind kind ||
              (fmf.noNaNs && fmf.noSignedZeros && isFPMinMaxRecurrenceKind kind) then
        isMinMaxSelectCmpPattern p iid prev
      else ⟨false, some iid, .none, none⟩
    | .fcmp | .icmp =>
      if isIntMinMaxRecurrenceKind kind ||
         (fmf.noNaNs && fmf.noSignedZeros && isFPMinMaxRecurrenceKind kind) then
        isMinMaxSelectCmpPattern p iid prev
      else ⟨false, some iid, .none, none⟩
    | _ => ⟨false, some iid, .none, none⟩

/-- Mirrors `RecurrenceDescriptor::hasMultipleUsesOf`: does the
instruction have more than `maxUses` operands drawn from the set? -/
def hasMultipleUsesOf (p : Program) (iid : Nat) (visited : List Nat)
    (maxUses : Nat) : Bool :=
  match p.instOf iid with
  | none => false
  | some ii =>
    maxUses < (ii.operands.filter fun o =>
      match o with
      | .inst j => visited.contains j
      | _ => false).length

/-- Mirrors `RecurrenceDescriptor::areAllUsesIn`: every operand is an
instruction in the set. -/
def areAllUsesIn (p : Program) (iid : Nat) (visited : List Nat) : Bool :=
  match p.instOf iid with
  | none => true
  | some ii =>
    ii.operands.all fun o =>
      match o with
      | .inst j => visited.contains j
      | _ => false

/-- Number of bits needed to represent `n` (the position of the highest
set bit plus one), over the 64-bit range the C++ helpers use. -/
def bitLen64 (n : Nat) : Nat :=
  ((List.range 65).find? fun k => n < 2 ^ k).getD 64

/-- `isPowerOf2_64`. -/
def isPow2_64 (n : Nat) : Bool :=
  (List.range 64).any fun k => n == 2 ^ k

/-- `NextPowerOf2` on a 64-bit value: the smallest power of two strictly
greater than `n`. -/
def nextPow2_64 (n : Nat) : Nat := 2 ^ bitLen64 n

/-- `APInt::exactLogBase2`: the exact base-2 logarithm, or `none` when the
value is not a power of two (zero included). -/
def exactLogBase2 (n : Nat) : Option Nat :=
  (List.range (n + 1)).findSome? fun k => if n == 2 ^ k then some k else none

/-- Mirrors `lookThroughAnd`: if the phi's single user is a bitwise AND
with a constant mask of the form `2^n - 1` (with `n > 0`, the increment
taken at the mask type's width), return the AND as the new chain start,
the narrowed `n`-bit type, the phi as pre-visited and the AND as a
collected cast; otherwise return the phi unchanged. -/
def lookThroughAnd (p : Program) (phiId : Nat) (phiI : Instruction) :
    Nat × LLVMType × List Nat × List Nat :=
  let noMatch := (phiId, phiI.ty, ([] : List Nat), ([] : List Nat))
  match p.users phiId with
  | [j] =>
    (match p.instOf j with
     | some ji =>
       if ji.opcode == .iand then
         match ji.operands with
         | [a, b] =>
           let mval : Option (LLVMType × Int) :=
             match a, b with
             | .inst _, .constInt t m => some (t, m)
             | .constInt t m, .inst _ => some (t, m)
             | _, _ => none
           (match mval with
            | some (t, m) =>
              let w := t.sizeInBits
              let mm := ((m + 1).emod (2 ^ w : Nat)).toNat
              (match exactLogBase2 mm with
               | some bits => if 0 < bits then (j, .intT bits, [phiId], [j]) else noMatch
               | none => noMatch)
            | none => noMatch)
         | _ => noMatch
       else noMatch
     | none => noMatch)
  | _ => noMatch

/-- Oracles standing in for the demanded-bits, assumption-cache/dominator
and known-bits analyses consumed by `computeRecurrenceType`. -/
structure RecurOracles where
  demandedBits : Option (Nat → Nat) := none
  acdt : Bool := false
  numSignBits : Nat → Nat := fun _ => 1
  knownNonNegative : Nat → Bool := fun _ => false
  knownNegative : Nat → Bool := fun _ => false

/-- The type of a value. -/
def valueType (p : Program) (v : LLVMValue) : LLVMType :=
  match v with
  | .inst i =>
    (match p.instOf i with
     | some ii => ii.ty
     | none => .voidT)
  | .constInt t _ => t
  | .constFP t _ => t
  | .arg t _ => t

/-- Mirrors `computeRecurrenceType`: the minimal bit width needed to
represent the reduction rooted at the exit instruction, via the
demanded-bits oracle, then sign-bit/known-bits tracking, rounded up to a
power of two; also whether sign extension is needed. -/
def computeRecurrenceType (p : Program) (o : RecurOracles) (exitId : Nat) :
    LLVMType × Bool :=
  let tyBits :=
    match p.instOf exitId with
    | some e => e.ty.sizeInBits
    | none => 0
  let mbw0 :=
    match o.demandedBits with
    | some db => bitLen64 (db exitId)
    | none => tyBits
  let mbws :=
    if mbw0 == tyBits && o.acdt then
      let m := tyBits - o.numSignBits exitId
      if !o.knownNonNegative exitId then
        if !o.knownNegative exitId then (m + 1, true) else (m, true)
      else (m, false)
    else (mbw0, false)
  let mbw := if isPow2_64 mbws.1 then mbws.1 else nextPow2_64 mbws.1
  (.intT mbw, mbws.2)

/-- Source type of a cast: the type of its first operand. -/
def srcTyOf (p : Program) (vi : Instruction) : LLVMType :=
  match vi.operands.head? with
  | some o => valueType p o
  | none => .voidT

/-- Mirrors `collectCastsToIgnore`: walk backward from the exit over
loop-resident operands, collecting cast instructions whose source type is
the narrow recurrence type. -/
def collectCastsToIgnore (p : Program) (L : LoopInfo) (recTy : LLVMType) :
    Nat → List Nat → List Nat → List Nat → List Nat
  | 0, _, _, casts => casts
  | _ + 1, [], _, casts => casts
  | fuel + 1, v :: rest, visited, casts =>
    let visited1 := v :: visited
    match p.instOf v with
    | none => collectCastsToIgnore p L recTy fuel rest visited1 casts
    | some vi =>
      if vi.opcode.isCast && srcTyOf p vi == recTy then
        collectCastsToIgnore p L recTy fuel rest visited1
          (if casts.contains v then casts else casts ++ [v])
      else
        let pushes := vi.operands.filterMap fun o =>
          match o with
          | .inst j =>
            (match p.instOf j with
             | some ji =>
               if L.containsBlock ji.parent && !visited1.contains j then some j
               else none
             | none => none)
          | _ => none
        collectCastsToIgnore p L recTy fuel (pushes.reverse ++ rest) visited1 casts

/-- Mirrors `checkOrderedReduction`: only an `FAdd` kind whose exit is an
`fadd` equal to the recorded exact-FP-math instruction and having the phi
among its two operands is an ordered reduction. -/
def checkOrderedReduction (p : Program) (kind : RecurKind)
    (exactFP : Option Nat) (exitId : Nat) (phiId : Nat) : Bool :=
  if kind != .fadd then false
  else
    match p.instOf exitId with
    | none => false
    | some ei =>
      if ei.opcode != .fadd || exactFP != some exitId then false
      else if ei.operands.getD 0 (.constInt .voidT 0) != .inst phiId &&
              ei.operands.getD 1 (.constInt .voidT 0) != .inst phiId then false
      else true

/-- Fixed per-call context of the reduction matcher's traversal. -/
structure RedCtx where
  p : Program
  phiId : Nat
  startId : Nat
  loop : LoopInfo
  funcFMF : FastMathFlags
  phiOps : List LLVMValue
  phiParent : Nat

/-- Mutable state of the reduction matcher's worklist traversal. -/
structure RedState where
  exitInstruction : Option Nat
  foundReduxOp : Bool
  foundStartPHI : Bool
  numCmpSelectPatternInst : Nat
  reduxDesc : InstDesc
  kind : RecurKind
  fmf : FastMathFlags
  visited : List Nat
  worklist : List Nat
deriving Repr

/-- Accumulator of the per-instruction user scan. -/
structure UserAcc where
  exitInstruction : Option Nat
  foundStartPHI : Bool
  visited : List Nat
  phis : List Nat
  nonPHIs : List Nat
deriving Repr

/-- The tolerated repeated in-loop uses: phi nodes, and compare/select
users recognized as a conditional or min/max idiom (the negation of the
source's failure condition for an already-visited user). -/
def repeatedUseOk (p : Program) (kind : RecurKind) (ui : Nat)
    (uii : Instruction) : Bool :=
  (uii.opcode == .phi) ||
  ((uii.opcode == .fcmp || uii.opcode == .icmp || uii.opcode == .select) &&
   ((isConditionalRdxPattern p kind ui).isRecurrence ||
    (isMinMaxSelectCmpPattern p ui ⟨false, none, .none, none⟩).isRecurrence))

/-- One user of the current instruction, as scanned by the body of
`AddReductionVar`'s worklist loop: out-of-loop users drive the
exit-instruction discipline; in-loop users are enqueued once, phis before
non-phis, with repeated non-phi uses tolerated only for the compare/select
idioms. -/
def processUser (c : RedCtx) (kind : RecurKind) (cur ui : Nat)
    (acc : UserAcc) : Option UserAcc :=
  match c.p.instOf ui with
  | none => none
  | some uii =>
    if !c.loop.containsBlock uii.parent then
      if acc.exitInstruction == some cur then some acc
      else if acc.exitInstruction != none || cur == c.phiId then none
      else if !c.phiOps.contains (LLVMValue.inst cur) then none
      else some { acc with exitInstruction := some cur }
    else if !acc.visited.contains ui then
      some { acc with
             visited := acc.visited ++ [ui],
             phis := if uii.opcode == .phi then acc.phis ++ [ui] else acc.phis,
             nonPHIs := if uii.opcode == .phi then acc.nonPHIs else acc.nonPHIs ++ [ui],
             foundStartPHI := acc.foundStartPHI || ui == c.phiId }
    else if !repeatedUseOk c.p kind ui uii then none
    else some { acc with foundStartPHI := acc.foundStartPHI || ui == c.phiId }

/-- Fold `processUser` over a user list, failing fast. -/
def processUsers (c : RedCtx) (kind : RecurKind) (cur : Nat) :
    List Nat → UserAcc → Option UserAcc
  | [], acc => some acc
  | ui :: rest, acc =>
    match processUser c kind cur ui acc with
    | none => none
    | some acc1 => processUsers c kind cur rest acc1

/-- The fast-math flags carried by a min/max select pattern instruction:
pull in the flags of an `fcmp` condition. -/
def selectCmpFMF (c : RedCtx) (pii : Instruction) : FastMathFlags :=
  if pii.opcode == .select then
    match pii.operands.head? with
    | some (.inst cid) =>
      (match c.p.instOf cid with
       | some ci => if ci.opcode == .fcmp then pii.fmf.union ci.fmf else pii.fmf
       | none => pii.fmf)
    | _ => pii.fmf
  else pii.fmf

/-- Intersect the running fast-math flags with those of a floating-point
pattern instruction (skipped when the popped instruction is a phi). -/
def redFMFUpdate (c : RedCtx) (curI : Instruction) (rd : InstDesc)
    (fmf : FastMathFlags) : FastMathFlags :=
  match rd.patternInst with
  | some pid =>
    (match c.p.instOf pid with
     | some pii =>
       if isFPMathOp pii && curI.opcode != .phi then fmf.inter (selectCmpFMF c pii)
       else fmf
     | none => fmf)
  | none => fmf

/-- The outcome of classifying against a given classifier result. -/
def redClassifyWith (c : RedCtx) (curI : Instruction) (st : RedState)
    (rd : InstDesc) : Option (RecurKind × InstDesc × FastMathFlags) :=
  if !rd.isRecurrence then none
  else some (if rd.recKind != .none then rd.recKind else st.kind, rd,
             redFMFUpdate c curI rd st.fmf)

/-- The classification stage of the worklist body: every instruction other
than the chain start is re-classified against the running kind, the
fast-math flags are intersected for floating-point pattern instructions
(pulling in the compare's flags through a min/max select), and the running
kind is updated when the classifier reports a concrete kind. -/
def redClassify (c : RedCtx) (cur : Nat) (curI : Instruction) (st : RedState) :
    Option (RecurKind × InstDesc × FastMathFlags) :=
  if cur == c.startId then some (st.kind, st.reduxDesc, st.fmf)
  else redClassifyWith c curI st
    (isRecurrenceInstr c.p cur st.kind st.reduxDesc c.funcFMF)

/-- The early rejections of the worklist body: no users; a second header
phi; a non-commutative, non-phi, non-select, non-compare instruction whose
left operand is not an already-visited instruction. -/
def redGuard1 (c : RedCtx) (cur : Nat) (curI : Instruction)
    (visited : List Nat) : Bool :=
  (c.p.users cur).isEmpty ||
  (cur != c.phiId && (curI.opcode == .phi) && curI.parent == c.phiParent) ||
  (!curI.opcode.isCommutative && !(curI.opcode == .phi) &&
   curI.opcode != .select && curI.opcode != .icmp && curI.opcode != .fcmp &&
   !(match curI.operands.head? with
     | some (.inst j) => visited.contains j
     | _ => false))

/-- The use-count rejections of the worklist body, checked against the
updated kind. -/
def redGuard2 (c : RedCtx) (cur : Nat) (curI : Instruction)
    (kind1 : RecurKind) (visited : List Nat) : Bool :=
  ((curI.opcode == .select) && (kind1 == .fadd || kind1 == .fmul) &&
   hasMultipleUsesOf c.p cur visited 2) ||
  (!(curI.opcode == .phi) && !(curI.opcode == .select) &&
   !isMinMaxRecurrenceKind kind1 && hasMultipleUsesOf c.p cur visited 1) ||
  ((curI.opcode == .phi) && cur != c.phiId && !areAllUsesIn c.p cur visited)

/-- The min/max pattern-instruction count contributed by one popped
instruction, under the updated kind. -/
def cmpSelIncr (kind1 : RecurKind) (op : Opcode) : Nat :=
  (if isIntMinMaxRecurrenceKind kind1 && (op == .icmp || op == .select)
   then 1 else 0) +
  (if isFPMinMaxRecurrenceKind kind1 && (op == .fcmp || op == .select)
   then 1 else 0)

/-- The body of `AddReductionVar`'s worklist loop for one popped
instruction `cur` (already removed from the state's worklist). -/
def redStep (c : RedCtx) (cur : Nat) (st : RedState) : Option RedState :=
  match c.p.instOf cur with
  | none => none
  | some curI =>
    if redGuard1 c cur curI st.visited then none
    else
      match redClassify c cur curI st with
      | none => none
      | some (kind1, rd1, fmf1) =>
        if redGuard2 c cur curI kind1 st.visited then none
        else
          match processUsers c kind1 cur (c.p.users cur)
              ⟨st.exitInstruction, st.foundStartPHI, st.visited, [], []⟩ with
          | none => none
          | some acc =>
            some { exitInstruction := acc.exitInstruction,
                   foundReduxOp := st.foundReduxOp ||
                     (!(curI.opcode == .phi) && cur != c.startId),
                   foundStartPHI := acc.foundStartPHI,
                   numCmpSelectPatternInst := st.numCmpSelectPatternInst +
                     cmpSelIncr kind1 curI.opcode,
                   reduxDesc := rd1,
                   kind := kind1,
                   fmf := fmf1,
                   visited := acc.visited,
                   worklist := acc.nonPHIs.reverse ++ acc.phis.reverse ++ st.worklist }

/-- Run the worklist to exhaustion (fuelled; the fuel used by
`AddReductionVar` always suffices because each instruction is enqueued at
most once). -/
def runRed (c : RedCtx) : Nat → RedState → Option RedState
  | 0, st => if st.worklist.isEmpty then some st else none
  | fuel + 1, st =>
    match st.worklist with
    | [] => some st
    | cur :: rest =>
      match redStep c cur { st with worklist := rest } with
      | none => none
      | some st1 => runRed c fuel st1

/-- The chain start, working type, pre-visited set and initial cast set
of an integer-typed reduction probe: the AND look-through applies only to
arithmetic kinds. -/
def redStartOf (p : Program) (phiId : Nat) (kind : RecurKind)
    (phiI : Instruction) : Nat × LLVMType × List Nat × List Nat :=
  if isArithmeticRecurrenceKind kind then lookThroughAnd p phiId phiI
  else (phiId, phiI.ty, [], [])

/-- Entry checks and type dispatch of `AddReductionVar`: two incoming
edges, header residence, kind/type agreement, and the speculative
AND look-through for arithmetic integer kinds.  Produces the traversal
context, the initial state, the working recurrence type and the initial
cast set. -/
def addRedInit (p : Program) (phiId : Nat) (kind : RecurKind) (L : LoopInfo)
    (funcFMF : FastMathFlags) :
    Option (RedCtx × RedState × LLVMType × List Nat) :=
  match p.instOf phiId with
  | none => none
  | some phiI =>
    if phiI.incomingBlocks.length != 2 then none
    else if phiI.parent != L.header then none
    else if phiI.ty.isFloatingPointTy then
      if !isFloatingPointRecurrenceKind kind then none
      else some (⟨p, phiId, phiId, L, funcFMF, phiI.operands, phiI.parent⟩,
                 ⟨none, false, false, 0, ⟨false, none, .none, none⟩, kind,
                  FastMathFlags.getFast, [phiId], [phiId]⟩, phiI.ty, [])
    else if phiI.ty.isIntegerTy then
      if !isIntegerRecurrenceKind kind then none
      else some (⟨p, phiId, (redStartOf p phiId kind phiI).1, L, funcFMF,
                  phiI.operands, phiI.parent⟩,
                 ⟨none, false, false, 0, ⟨false, none, .none, none⟩, kind,
                  FastMathFlags.getFast,
                  (redStartOf p phiId kind phiI).2.2.1 ++
                    [(redStartOf p phiId kind phiI).1],
                  [(redStartOf p phiId kind phiI).1]⟩,
                 (redStartOf p phiId kind phiI).2.1,
                 (redStartOf p phiId kind phiI).2.2.2)
    else none

/-- The final artifact of a successful reduction match
(`RecurrenceDescriptor`). -/
structure RecurrenceDescriptorR where
  startValue : Option LLVMValue
  loopExitInstr : Nat
  kind : RecurKind
  fmf : FastMathFlags
  exactFPMathInst : Option Nat
  recurrenceType : LLVMType
  isSigned : Bool
  isOrdered : Bool
  castInsts : List Nat
deriving DecidableEq, Repr

/-- The reduction start value: the phi's incoming value from the loop
preheader. -/
def redRdxStart (c : RedCtx) : Option LLVMValue :=
  match c.loop.preheader with
  | some ph =>
    (match c.p.instOf c.phiId with
     | some phiI => phiI.incomingValueForBlock ph
     | none => none)
  | none => none

/-- The checks and descriptor construction after `AddReductionVar`'s
worklist loop: the min/max instruction count, cycle closure, reduction-op
presence and exit discipline; the ordered-reduction flag; and, when the
AND look-through was taken, the recomputed-type agreement requirement plus
redundant-cast collection. -/
def addRedFinish (c : RedCtx) (o : RecurOracles) (recTy : LLVMType)
    (casts0 : List Nat) (st : RedState) : Option RecurrenceDescriptorR :=
  if isMinMaxRecurrenceKind st.kind && st.numCmpSelectPatternInst != 2 then none
  else if !st.foundStartPHI || !st.foundReduxOp then none
  else
    match st.exitInstruction with
    | none => none
    | some exitId =>
      if c.startId != c.phiId then
        if (computeRecurrenceType c.p o exitId).1 != recTy then none
        else
          some ⟨redRdxStart c, exitId, st.kind, st.fmf,
                st.reduxDesc.exactFPMathInst, recTy,
                (computeRecurrenceType c.p o exitId).2,
                checkOrderedReduction c.p st.kind st.reduxDesc.exactFPMathInst
                  exitId c.phiId,
                collectCastsToIgnore c.p c.loop recTy
                  ((c.p.insts.length + 1) * (c.p.insts.length + 1))
                  [exitId] [] casts0⟩
      else
        some ⟨redRdxStart c, exitId, st.kind, st.fmf,
              st.reduxDesc.exactFPMathInst, recTy, false,
              checkOrderedReduction c.p st.kind st.reduxDesc.exactFPMathInst
                exitId c.phiId,
              casts0⟩

/-- Mirrors `RecurrenceDescriptor::AddReductionVar`: decide whether the
phi heads a reduction of the candidate kind and build its descriptor. -/
def AddReductionVar (p : Program) (phiId : Nat) (kind : RecurKind)
    (L : LoopInfo) (funcFMF : FastMathFlags) (o : RecurOracles) :
    Option RecurrenceDescriptorR :=
  match addRedInit p phiId kind L funcFMF with
  | none => none
  | some (c, st0, recTy, casts0) =>
    match runRed c (p.insts.length + 1) st0 with
    | none => none
    | some st => addRedFinish c o recTy casts0 st

/-- The function attributes consulted by the kind prober. -/
structure LLVMFunctionAttrs where
  noNaNsFPMath : Bool
  noSignedZerosFPMath : Bool
deriving DecidableEq, Repr

/-- The fast-math flags `isReductionPHI` derives from the enclosing
function's attributes. -/
def fnAttrFMF (f : LLVMFunctionAttrs) : FastMathFlags :=
  { noNaNs := f.noNaNsFPMath, noSignedZeros := f.noSignedZerosFPMath }

/-- Mirrors `RecurrenceDescriptor::isReductionPHI`: try every kind in the
source's order, returning the first success. -/
def isReductionPHI (p : Program) (phiId : Nat) (L : LoopInfo)
    (f : LLVMFunctionAttrs) (o : RecurOracles) : Option RecurrenceDescriptorR :=
  let fmf := fnAttrFMF f
  match AddReductionVar p phiId .add L fmf o with
  | some d => some d
  | none =>
  match AddReductionVar p phiId .mul L fmf o with
  | some d => some d
  | none =>
  match AddReductionVar p phiId .or L fmf o with
  | some d => some d
  | none =>
  match AddReductionVar p phiId .and L fmf o with
  | some d => some d
  | none =>
  match AddReductionVar p phiId .xor L fmf o with
  | some d => some d
  | none =>
  match AddReductionVar p phiId .smax L fmf o with
  | some d => some d
  | none =>
  match AddReductionVar p phiId .smin L fmf o with
  | some d => some d
  | none =>
  match AddReductionVar p phiId .umax L fmf o with
  | some d => some d
  | none =>
  match AddReductionVar p phiId .umin L fmf o with
  | some d => some d
  | none =>
  match AddReductionVar p phiId .fmul L fmf o with
  | some d => some d
  | none =>
  match AddReductionVar p phiId .fadd L fmf o with
  | some d => some d
  | none =>
  match AddReductionVar p phiId .fmax L fmf o with
  | some d => some d
  | none =>
  match AddReductionVar p phiId .fmin L fmf o with
  | some d => some d
  | none => none

/-- The kind priority order of `isReductionPHI`. -/
def kindPriorityList : List RecurKind :=
  [.add, .mul, .or, .and, .xor, .smax, .smin, .umax, .umin,
   .fmul, .fadd, .fmax, .fmin]

/-- Insertion into the program-order-sorted set of tentatively sunk
instructions (`std::set` ordered by `comesBefore`; instruction ids render
program order within the phi's block). -/
def insertSorted (a : Nat) : List Nat → List Nat
  | [] => [a]
  | b :: l => if a < b then a :: b :: l else b :: insertSorted a l

/-- `MapVector` assignment: update in place when the key is present,
append otherwise. -/
def mvSet (m : List (Nat × Nat)) (k v : Nat) : List (Nat × Nat) :=
  match m with
  | [] => [(k, v)]
  | kv :: rest => if kv.1 == k then (k, v) :: rest else kv :: mvSet rest k v

/-- Fixed context of one first-order-recurrence sinking attempt. -/
structure SinkCtx where
  p : Program
  phiId : Nat
  phiBB : Nat
  previous : Nat
  sinkAfter : List (Nat × Nat)
  dom : Nat → Nat → Bool

/-- Mirrors `TryToPushSinkCandidate`: accept already-sunk or
already-dominated candidates, reject the previous value itself, anything
outside the phi's block or unsafe to reorder, and anything already
scheduled by an earlier call; accept header phis without sinking;
otherwise tentatively sink the candidate and queue its users. -/
def tryToPushSinkCandidate (c : SinkCtx) (cand : Nat)
    (toSink : List Nat) (wl : List Nat) : Option (List Nat × List Nat) :=
  match c.p.instOf cand with
  | none => none
  | some ci =>
    if ci.parent == c.phiBB && toSink.contains cand then some (toSink, wl)
    else if cand == c.previous then none
    else if c.dom c.previous cand then some (toSink, wl)
    else if ci.parent != c.phiBB || ci.sideEffects || ci.readsMem ||
            ci.terminator then none
    else if (c.sinkAfter.lookup cand).isSome then none
    else if ci.opcode == .phi then some (toSink, wl)
    else some (insertSorted cand toSink, cand :: wl)

/-- Push every user of the current instruction, failing fast. -/
def sinkUsersFold (c : SinkCtx) :
    List Nat → List Nat → List Nat → Option (List Nat × List Nat)
  | [], toSink, wl => some (toSink, wl)
  | u :: rest, toSink, wl =>
    match tryToPushSinkCandidate c u toSink wl with
    | none => none
    | some tw => sinkUsersFold c rest tw.1 tw.2

/-- The sinker's worklist loop (fuelled): traverse users of the phi and of
every tentatively sunk instruction. -/
def runSink (c : SinkCtx) : Nat → List Nat → List Nat → Option (List Nat)
  | 0, toSink, wl => if wl.isEmpty then some toSink else none
  | fuel + 1, toSink, wl =>
    match wl with
    | [] => some toSink
    | cur :: rest =>
      match sinkUsersFold c (c.p.users cur) toSink rest with
      | none => none
      | some tw => runSink c fuel tw.1 tw.2

/-- The commit phase of a successful sinking attempt: each tentatively
sunk instruction, in program order, is placed after the previously
committed one, starting from the latch-supplied value. -/
def commitSink (sinkAfter : List (Nat × Nat)) (prevId : Nat)
    (toSink : List Nat) : List (Nat × Nat) :=
  (toSink.foldl (fun acc i => (mvSet acc.1 i acc.2, i)) (sinkAfter, prevId)).1

/-- Mirrors `RecurrenceDescriptor::isFirstOrderRecurrence`: recognize a
value used with a one-iteration lag and compute the sink schedule; the
returned map is the (possibly extended) `SinkAfter` map. -/
def isFirstOrderRecurrence (p : Program) (phiId : Nat) (L : LoopInfo)
    (sinkAfter : List (Nat × Nat)) (dom : Nat → Nat → Bool) :
    Bool × List (Nat × Nat) :=
  match p.instOf phiId with
  | none => (false, sinkAfter)
  | some phiI =>
    if phiI.parent != L.header || phiI.incomingBlocks.length != 2 then
      (false, sinkAfter)
    else
      match L.preheader, L.latch with
      | some ph, some lt =>
        if !phiI.incomingBlocks.contains ph || !phiI.incomingBlocks.contains lt then
          (false, sinkAfter)
        else
          (match phiI.incomingValueForBlock lt with
           | some (.inst prevId) =>
             (match p.instOf prevId with
              | none => (false, sinkAfter)
              | some prevI =>
                if !L.containsBlock prevI.parent || prevI.opcode == .phi ||
                   (sinkAfter.lookup prevId).isSome then (false, sinkAfter)
                else
                  match runSink ⟨p, phiId, phiI.parent, prevId, sinkAfter, dom⟩
                      (p.insts.length + 1) [] [phiId] with
                  | none => (false, sinkAfter)
                  | some toSink => (true, commitSink sinkAfter prevId toSink))
           | _ => (false, sinkAfter))
      | _, _ => (false, sinkAfter)

/-- Symbolic affine-recurrence engine expressions (the SCEV fragment the
induction classifier consumes): constants, affine recurrences attached to
a loop, and opaque values. -/
inductive SCEVExpr
  | constE (val : Int)
  | addRec (loopHeader : Nat) (step : SCEVExpr)
  | unknownE (tag : Nat)
deriving DecidableEq, Repr

/-- The affine-recurrence engine oracle. -/
structure SEOracle where
  getSCEV : Nat → SCEVExpr := fun t => .unknownE t
  loopInvariant : SCEVExpr → Bool := fun _ => false

/-- Induction kinds (`InductionDescriptor::InductionKind`). -/
inductive InductionKind
  | noInduction | intInduction | ptrInduction | fpInduction
deriving DecidableEq, Repr

/-- The final artifact of a successful induction classification. -/
structure InductionDescriptorR where
  startValue : Option LLVMValue
  ik : InductionKind
  step : SCEVExpr
  binOp : Option Nat
  redundantCasts : List Nat
deriving DecidableEq, Repr

/-- The symbolic expression the classifier works on: the supplied one, or
the engine's answer for the phi. -/
def usedScev (se : SEOracle) (expr : Option SCEVExpr) (phiId : Nat) : SCEVExpr :=
  match expr with
  | some e => e
  | none => se.getSCEV phiId

/-- The induction start value: the phi's incoming value from the
preheader. -/
def indStartValue (L : LoopInfo) (phiI : Instruction) : Option LLVMValue :=
  match L.preheader with
  | some ph => phiI.incomingValueForBlock ph
  | none => none

/-- The update binary operator: the latch-supplied value when it is a
binary operator instruction. -/
def indBinOp (p : Program) (phiI : Instruction) (lt : Nat) : Option Nat :=
  match phiI.incomingValueForBlock lt with
  | some (.inst b) =>
    (match p.instOf b with
     | some bi => if bi.opcode.isBinaryOp then some b else none
     | none => none)
  | _ => none

/-- `dyn_cast<SCEVConstant>` on a step expression. -/
def scevConst : SCEVExpr → Option Int
  | .constE v => some v
  | _ => none

/-- Mirrors the `ScalarEvolution`-based `InductionDescriptor::isInductionPHI`
overload: require an affine recurrence of this very loop, a constant or
loop-invariant step, and for pointer phis a constant byte step that is an
exact non-zero multiple of the pointee's storage size, reporting the
element stride. -/
def isInductionPHIse (p : Program) (phiId : Nat) (L : LoopInfo)
    (se : SEOracle) (expr : Option SCEVExpr) (castsToIgnore : List Nat) :
    Option InductionDescriptorR :=
  match p.instOf phiId with
  | none => none
  | some phiI =>
    if !phiI.ty.isIntegerTy && !phiI.ty.isPointerTy then none
    else
      match usedScev se expr phiId with
      | .addRec arLoop step =>
        if arLoop != L.header then none
        else
          match L.latch with
          | none => none
          | some lt =>
            if (scevConst step).isNone && !se.loopInvariant step then none
            else if phiI.ty.isIntegerTy then
              some ⟨indStartValue L phiI, .intInduction, step,
                    indBinOp p phiI lt, castsToIgnore⟩
            else
              match scevConst step with
              | none => none
              | some cv =>
                (match phiI.ty with
                 | .ptrT sized asize =>
                   if !sized then none
                   else if (asize : Int) == 0 then none
                   else if cv.tmod (asize : Int) != 0 then none
                   else some ⟨indStartValue L phiI, .ptrInduction,
                              .constE (cv.tdiv (asize : Int)),
                              indBinOp p phiI lt, []⟩
                 | _ => none)
      | _ => none

/-- Idealized floating-point values: NaN, signed infinities, signed
zeros, and finite values with exact magnitude. -/
inductive FPVal
  | nan
  | inf (negative : Bool)
  | zero (negative : Bool)
  | finite (val : Int)
deriving DecidableEq, Repr

/-- Ordered less-than (`fcmp olt`) on idealized floats: false whenever
either operand is NaN. -/
def folt : FPVal → FPVal → Bool
  | .nan, _ => false
  | _, .nan => false
  | .inf an, .inf bn => an && !bn
  | .inf an, _ => an
  | _, .inf bn => !bn
  | .zero _, .zero _ => false
  | .zero _, .finite b => 0 < b
  | .finite a, .zero _ => a < 0
  | .finite a, .finite b => a < b

/-- Modelled from the spec: the floating min combining operation in the
recognized idiom shape, `select (fcmp olt a b), a, b`. -/
def fminIdiom (a b : FPVal) : FPVal := if folt a b then a else b

/-- Modelled from the spec: the floating max combining operation,
`select (fcmp ogt a b), a, b`. -/
def fmaxIdiom (a b : FPVal) : FPVal := if folt b a then a else b

/-- The constants the identity table can return. -/
inductive RecIdentityConst
  | intC (val : Int)
  | fpC (v : FPVal)
deriving DecidableEq, Repr

/-- Mirrors `RecurrenceDescriptor::getRecurrenceIdentity` exactly as
written, including its infinity polarity for `FMin`/`FMax`
(`getInfinity(Tp, true)` is negative infinity): integer constants carry
their signed value, `SMin`/`SMax` use the signed extrema of the type's
width, `FAdd` keys on the no-signed-zeros flag, and the unreachable
default is `none`. -/
def getRecurrenceIdentity (k : RecurKind) (tp : LLVMType)
    (fmf : FastMathFlags) : Option RecIdentityConst :=
  match k with
  | .xor | .add | .or => some (.intC 0)
  | .mul => some (.intC 1)
  | .and => some (.intC (-1))
  | .fmul => some (.fpC (.finite 1))
  | .fadd =>
    if fmf.noSignedZeros then some (.fpC (.zero false))
    else some (.fpC (.zero true))
  | .umin => some (.intC (-1))
  | .umax => some (.intC 0)
  | .smin => some (.intC ((2 : Int) ^ (tp.sizeInBits - 1) - 1))
  | .smax => some (.intC (-((2 : Int) ^ (tp.sizeInBits - 1))))
  | .fmin => some (.fpC (.inf true))
  | .fmax => some (.fpC (.inf false))
  | .none => none

/-- Positive infinity is the neutral element of the recognized floating
min idiom: this is what an `FMin` identity would have to be. -/
theorem fminIdiom_posInf_neutral (x : FPVal) : fminIdiom (.inf false) x = x := by
  cases x <;> rfl

/-- Negative infinity is the neutral element of the recognized floating
max idiom: this is what an `FMax` identity would have to be. -/
theorem fmaxIdiom_negInf_neutral (x : FPVal) : fmaxIdiom (.inf true) x = x := by
  cases x with
  | inf b => cases b <;> rfl
  | nan => rfl
  | zero b => rfl
  | finite v => rfl

/-! Concrete example graphs used as witnesses. -/

/-- A canonical integer add reduction: `s = phi [0, %pre], [%s1, %latch]`,
`s1 = add s, x` with `s1` also used outside the loop. -/
def exAdd : Program :=
  ⟨[(1, { opcode := .phi, ty := .intT 32,
          operands := [.constInt (.intT 32) 0, .inst 2],
          parent := 1, incomingBlocks := [0, 1] }),
    (2, { opcode := .iadd, ty := .intT 32,
          operands := [.inst 1, .arg (.intT 32) 0], parent := 1 }),
    (3, { opcode := .other, ty := .intT 32, operands := [.inst 2], parent := 2 })]⟩

/-- The single-block loop shared by the examples: block 1 is header and
latch, block 0 the preheader, block 2 outside. -/
def exLoop : LoopInfo := ⟨[1], 1, some 0, some 1⟩

/-- An ordered floating add reduction: one `fadd` without the
allow-reassociation flag feeding the backedge and escaping. -/
def exFAddOrd : Program :=
  ⟨[(1, { opcode := .phi, ty := .doubleT,
          operands := [.constFP .doubleT 0, .inst 2],
          parent := 1, incomingBlocks := [0, 1] }),
    (2, { opcode := .fadd, ty := .doubleT,
          operands := [.inst 1, .arg .doubleT 0], parent := 1 }),
    (3, { opcode := .other, ty := .doubleT, operands := [.inst 2], parent := 2 })]⟩

/-- A two-step floating add chain whose first `fadd` lacks the
allow-reassociation flag while the second (the exit) carries it. -/
def exFAddTwo : Program :=
  ⟨[(1, { opcode := .phi, ty := .doubleT,
          operands := [.constFP .doubleT 0, .inst 3],
          parent := 1, incomingBlocks := [0, 1] }),
    (2, { opcode := .fadd, ty := .doubleT,
          operands := [.inst 1, .arg .doubleT 0], parent := 1 }),
    (3, { opcode := .fadd, ty := .doubleT,
          operands := [.inst 2, .arg .doubleT 1], parent := 1,
          fmf := { allowReassoc := true } }),
    (4, { opcode := .other, ty := .doubleT, operands := [.inst 3], parent := 2 })]⟩

/-- A signed max idiom: `c = icmp sgt s, x`, `s1 = select c, s, x`. -/
def exSMax : Program :=
  ⟨[(1, { opcode := .phi, ty := .intT 32,
          operands := [.constInt (.intT 32) 0, .inst 3],
          parent := 1, incomingBlocks := [0, 1] }),
    (2, { opcode := .icmp, ty := .intT 1,
          operands := [.inst 1, .arg (.intT 32) 0], parent := 1, pred := .isgt }),
    (3, { opcode := .select, ty := .intT 32,
          operands := [.inst 2, .inst 1, .arg (.intT 32) 0], parent := 1 }),
    (4, { opcode := .other, ty := .intT 32, operands := [.inst 3], parent := 2 })]⟩

/-- A type-promoted add reduction: the phi's single user is
`and s, 255`, and the add on the narrowed chain feeds the backedge. -/
def exAnd : Program :=
  ⟨[(1, { opcode := .phi, ty := .intT 32,
          operands := [.constInt (.intT 32) 0, .inst 3],
          parent := 1, incomingBlocks := [0, 1] }),
    (2, { opcode := .iand, ty := .intT 32,
          operands := [.inst 1, .constInt (.intT 32) 255], parent := 1 }),
    (3, { opcode := .iadd, ty := .intT 32,
          operands := [.inst 2, .arg (.intT 32) 0], parent := 1 }),
    (4, { opcode := .other, ty := .intT 32, operands := [.inst 3], parent := 2 })]⟩

/-- Oracles for `exAnd`: demanded bits limit the exit to 8 bits. -/
def exAndOracles : RecurOracles := { demandedBits := some fun _ => 255 }

/-- A floating min idiom: `c = fcmp olt s, x`, `s1 = select c, s, x`. -/
def exFMin : Program :=
  ⟨[(1, { opcode := .phi, ty := .doubleT,
          operands := [.constFP .doubleT 0, .inst 3],
          parent := 1, incomingBlocks := [0, 1] }),
    (2, { opcode := .fcmp, ty := .intT 1,
          operands := [.inst 1, .arg .doubleT 0], parent := 1, pred := .folt }),
    (3, { opcode := .select, ty := .doubleT,
          operands := [.inst 2, .inst 1, .arg .doubleT 0], parent := 1 }),
    (4, { opcode := .other, ty := .doubleT, operands := [.inst 3], parent := 2 })]⟩

/-- A first-order recurrence: the lagged phi value feeds a multiply that
must be sunk after the latch-supplied add. -/
def exFOR : Program :=
  ⟨[(1, { opcode := .phi, ty := .intT 32,
          operands := [.constInt (.intT 32) 0, .inst 3],
          parent := 1, incomingBlocks := [0, 1] }),
    (2, { opcode := .imul, ty := .intT 32,
          operands := [.inst 1, .arg (.intT 32) 0], parent := 1 }),
    (3, { opcode := .iadd, ty := .intT 32,
          operands := [.arg (.intT 32) 1, .arg (.intT 32) 2], parent := 1 })]⟩

/-- `exFOR` with the consumer of the lagged value reading memory. -/
def exFORread : Program :=
  ⟨[(1, { opcode := .phi, ty := .intT 32,
          operands := [.constInt (.intT 32) 0, .inst 3],
          parent := 1, incomingBlocks := [0, 1] }),
    (2, { opcode := .load, ty := .intT 32,
          operands := [.inst 1, .arg (.intT 32) 0], parent := 1, readsMem := true }),
    (3, { opcode := .iadd, ty := .intT 32,
          operands := [.arg (.intT 32) 1, .arg (.intT 32) 2], parent := 1 })]⟩

/-- Program order as the dominance oracle of the single-block examples. -/
def exDom : Nat → Nat → Bool := fun a b => a < b

/-- A pointer induction phi over a pointee of alloc size 4. -/
def exPtr : Program :=
  ⟨[(1, { opcode := .phi, ty := .ptrT true 4,
          operands := [.arg (.ptrT true 4) 0, .inst 2],
          parent := 1, incomingBlocks := [0, 1] }),
    (2, { opcode := .other, ty := .ptrT true 4,
          operands := [.inst 1], parent := 1 })]⟩

/-! Inversion lemmas for the reduction matcher pipeline. -/

/-- Successful classification of a non-start instruction applies the
per-instruction classifier to the running state. -/
theorem redClassify_some_inv {c : RedCtx} {cur : Nat} {curI : Instruction}
    {st : RedState} {kind1 : RecurKind} {rd1 : InstDesc} {fmf1 : FastMathFlags}
    (h : redClassify c cur curI st = some (kind1, rd1, fmf1))
    (hne : cur ≠ c.startId) :
    rd1 = isRecurrenceInstr c.p cur st.kind st.reduxDesc c.funcFMF ∧
    rd1.isRecurrence = true ∧
    kind1 = (if rd1.recKind != .none then rd1.recKind else st.kind) := by
  unfold redClassify redClassifyWith at h
  rw [if_neg (by simp [hne])] at h
  split at h
  · exact absurd h (by simp)
  · rename_i hrec
    simp only [Option.some.injEq, Prod.mk.injEq] at h
    obtain ⟨hk, hrd, -⟩ := h
    subst hrd
    subst hk
    exact ⟨rfl, by simpa using hrec, rfl⟩

/-- Classification at the chain start leaves the state unchanged. -/
theorem redClassify_start {c : RedCtx} {curI : Instruction} {st : RedState} :
    redClassify c c.startId curI st = some (st.kind, st.reduxDesc, st.fmf) := by
  unfold redClassify
  rw [if_pos (by simp)]

/-- Inversion of one successful worklist step: the instruction exists, was
classified, its users were scanned, and the new state is assembled from
the outcomes. -/
theorem redStep_some_inv {c : RedCtx} {cur : Nat} {st st' : RedState}
    (h : redStep c cur st = some st') :
    ∃ curI kind1 rd1 fmf1 acc,
      c.p.instOf cur = some curI ∧
      redClassify c cur curI st = some (kind1, rd1, fmf1) ∧
      processUsers c kind1 cur (c.p.users cur)
        ⟨st.exitInstruction, st.foundStartPHI, st.visited, [], []⟩ = some acc ∧
      st' = { exitInstruction := acc.exitInstruction,
              foundReduxOp := st.foundReduxOp ||
                (!(curI.opcode == .phi) && cur != c.startId),
              foundStartPHI := acc.foundStartPHI,
              numCmpSelectPatternInst := st.numCmpSelectPatternInst +
                cmpSelIncr kind1 curI.opcode,
              reduxDesc := rd1, kind := kind1, fmf := fmf1,
              visited := acc.visited,
              worklist := acc.nonPHIs.reverse ++ acc.phis.reverse ++ st.worklist } := by
  unfold redStep at h
  split at h
  · exact absurd h (by simp)
  · rename_i curI hI
    split at h
    · exact absurd h (by simp)
    · split at h
      · exact absurd h (by simp)
      · rename_i k1 rd1 f1 hcl
        split at h
        · exact absurd h (by simp)
        · split at h
          · exact absurd h (by simp)
          · rename_i acc hacc
            exact ⟨curI, k1, rd1, f1, acc, hI, hcl, hacc,
                   (Option.some.inj h).symm⟩

/-- Inversion of the post-traversal stage: every final requirement holds
of the final state, and the descriptor's fields are drawn from it. -/
theorem addRedFinish_some_inv {c : RedCtx} {o : RecurOracles}
    {recTy : LLVMType} {casts0 : List Nat} {st : RedState}
    {d : RecurrenceDescriptorR}
    (h : addRedFinish c o recTy casts0 st = some d) :
    st.exitInstruction = some d.loopExitInstr ∧
    d.kind = st.kind ∧
    d.exactFPMathInst = st.reduxDesc.exactFPMathInst ∧
    d.isOrdered = checkOrderedReduction c.p st.kind
      st.reduxDesc.exactFPMathInst d.loopExitInstr c.phiId ∧
    st.foundStartPHI = true ∧ st.foundReduxOp = true ∧
    (isMinMaxRecurrenceKind st.kind = true → st.numCmpSelectPatternInst = 2) ∧
    (c.startId ≠ c.phiId →
      (computeRecurrenceType c.p o d.loopExitInstr).1 = recTy) ∧
    d.recurrenceType = recTy := by
  unfold addRedFinish at h
  split at h
  · exact absurd h (by simp)
  · rename_i hmm
    split at h
    · exact absurd h (by simp)
    · rename_i hsf
      split at h
      · exact absurd h (by simp)
      · rename_i exitId hexit
        simp at hsf
        split at h
        · rename_i hstart
          split at h
          · exact absurd h (by simp)
          · rename_i hct
            cases h
            refine ⟨hexit, rfl, rfl, rfl, hsf.1, hsf.2, ?_, ?_, rfl⟩
            · intro hk
              by_contra hn
              exact hmm (by simp [hk, hn])
            · intro _
              simpa using hct
        · rename_i hstart
          cases h
          refine ⟨hexit, rfl, rfl, rfl, hsf.1, hsf.2, ?_, ?_, rfl⟩
          · intro hk
            by_contra hn
            exact hmm (by simp [hk, hn])
          · intro hne
            exact absurd (by simpa using hne) hstart

/-- Inversion of `AddReductionVar` into its three stages. -/
theorem AddReductionVar_some_inv {p : Program} {phiId : Nat}
    {kind : RecurKind} {L : LoopInfo} {fmf : FastMathFlags}
    {o : RecurOracles} {d : RecurrenceDescriptorR}
    (h : AddReductionVar p phiId kind L fmf o = some d) :
    ∃ c st0 recTy casts0 st,
      addRedInit p phiId kind L fmf = some (c, st0, recTy, casts0) ∧
      runRed c (p.insts.length + 1) st0 = some st ∧
      addRedFinish c o recTy casts0 st = some d := by
  unfold AddReductionVar at h
  split at h
  · exact absurd h (by simp)
  · rename_i c st0 recTy casts0 hinit
    split at h
    · exact absurd h (by simp)
    · rename_i st hrun
      exact ⟨c, st0, recTy, casts0, st, hinit, hrun, h⟩

/-- Inversion of the entry stage: the context and initial state fields. -/
theorem addRedInit_some_inv {p : Program} {phiId : Nat} {kind : RecurKind}
    {L : LoopInfo} {fmf : FastMathFlags} {c : RedCtx} {st0 : RedState}
    {recTy : LLVMType} {casts0 : List Nat}
    (h : addRedInit p phiId kind L fmf = some (c, st0, recTy, casts0)) :
    c.p = p ∧ c.phiId = phiId ∧ c.funcFMF = fmf ∧ c.loop = L ∧
    st0.kind = kind ∧ st0.exitInstruction = none ∧
    st0.foundReduxOp = false ∧
    st0.reduxDesc = ⟨false, none, .none, none⟩ ∧
    ∃ phiI, p.instOf phiId = some phiI ∧ c.phiOps = phiI.operands ∧
      (c.startId ≠ phiId →
        isArithmeticRecurrenceKind kind = true ∧
        phiI.ty.isIntegerTy = true ∧
        c.startId = (lookThroughAnd p phiId phiI).1 ∧
        recTy = (lookThroughAnd p phiId phiI).2.1 ∧
        casts0 = (lookThroughAnd p phiId phiI).2.2.2) := by
  unfold addRedInit at h
  split at h
  · exact absurd h (by simp)
  · rename_i phiI hphi
    split at h
    · exact absurd h (by simp)
    · split at h
      · exact absurd h (by simp)
      · split at h
        · split at h
          · exact absurd h (by simp)
          · cases h
            exact ⟨rfl, rfl, rfl, rfl, rfl, rfl, rfl, rfl, phiI, hphi, rfl,
                   fun hne => absurd rfl hne⟩
        · split at h
          · rename_i hint
            split at h
            · exact absurd h (by simp)
            · cases h
              refine ⟨rfl, rfl, rfl, rfl, rfl, rfl, rfl, rfl, phiI, hphi, rfl,
                      fun hne => ?_⟩
              by_cases ha : isArithmeticRecurrenceKind kind = true
              · simp [redStartOf, ha, hint]
              · simp [redStartOf, ha] at hne
          · exact absurd h (by simp)

/-! Claim theorems. -/

/-- Claim C1: the reduction kind prober tries the matcher for each kind in
the fixed priority order Add, Mul, Or, And, Xor, SMax, SMin, UMax, UMin,
FMul, FAdd, FMax, FMin, returns the first success, and returns no-match
exactly when every kind in that list fails. -/
theorem claim_C1_prober_priority_order (p : Program) (phiId : Nat)
    (L : LoopInfo) (f : LLVMFunctionAttrs) (o : RecurOracles) :
    isReductionPHI p phiId L f o =
      kindPriorityList.findSome?
        (fun k => AddReductionVar p phiId k L (fnAttrFMF f) o) ∧
    (isReductionPHI p phiId L f o = none ↔
      ∀ k ∈ kindPriorityList,
        AddReductionVar p phiId k L (fnAttrFMF f) o = none) := by
  have h : isReductionPHI p phiId L f o =
      kindPriorityList.findSome?
        (fun k => AddReductionVar p phiId k L (fnAttrFMF f) o) := by
    unfold isReductionPHI kindPriorityList
    simp only [List.findSome?_cons, List.findSome?_nil]
    cases AddReductionVar p phiId RecurKind.add L (fnAttrFMF f) o with
    | some d => rfl
    | none =>
    cases AddReductionVar p phiId RecurKind.mul L (fnAttrFMF f) o with
    | some d => rfl
    | none =>
    cases AddReductionVar p phiId RecurKind.or L (fnAttrFMF f) o with
    | some d => rfl
    | none =>
    cases AddReductionVar p phiId RecurKind.and L (fnAttrFMF f) o with
    | some d => rfl
    | none =>
    cases AddReductionVar p phiId RecurKind.xor L (fnAttrFMF f) o with
    | some d => rfl
    | none =>
    cases AddReductionVar p phiId RecurKind.smax L (fnAttrFMF f) o with
    | some d => rfl
    | none =>
    cases AddReductionVar p phiId RecurKind.smin L (fnAttrFMF f) o with
    | some d => rfl
    | none =>
    cases AddReductionVar p phiId RecurKind.umax L (fnAttrFMF f) o with
    | some d => rfl
    | none =>
    cases AddReductionVar p phiId RecurKind.umin L (fnAttrFMF f) o with
    | some d => rfl
    | none =>
    cases AddReductionVar p phiId RecurKind.fmul L (fnAttrFMF f) o with
    | some d => rfl
    | none =>
    cases AddReductionVar p phiId RecurKind.fadd L (fnAttrFMF f) o with
    | some d => rfl
    | none =>
    cases AddReductionVar p phiId RecurKind.fmax L (fnAttrFMF f) o with
    | some d => rfl
    | none =>
    cases AddReductionVar p phiId RecurKind.fmin L (fnAttrFMF f) o with
    | some d => rfl
    | none => rfl
  exact ⟨h, by rw [h]; exact List.findSome?_eq_none_iff⟩

/-- Claim C10 (code bug): the identity table, evaluated at the failing
input `FMin` (over `double`, default flags), returns negative infinity —
which absorbs every other value under the recognized floating-min idiom
instead of being its neutral element — and symmetrically returns positive
infinity for `FMax`.  The neutral elements are the opposite infinities
(`fminIdiom_posInf_neutral`, `fmaxIdiom_negInf_neutral`). -/
theorem claim_C10_identity_table_fmin_fmax :
    getRecurrenceIdentity .fmin .doubleT {} = some (.fpC (.inf true)) ∧
    fminIdiom (.inf true) (.finite 1) = .inf true ∧
    FPVal.inf true ≠ FPVal.finite 1 ∧
    getRecurrenceIdentity .fmax .doubleT {} = some (.fpC (.inf false)) ∧
    fmaxIdiom (.inf false) (.finite 1) = .inf false ∧
    FPVal.inf false ≠ FPVal.finite 1 :=
  ⟨rfl, rfl, by decide, rfl, rfl, by decide⟩

/-- Exact division: a zero truncating remainder yields divisibility. -/
theorem dvd_of_tmod_eq_zero {a b : Int} (h : a.tmod b = 0) : b ∣ a := by
  have hd := Int.tmod_add_tdiv a b
  rw [h, zero_add] at hd
  exact ⟨a.tdiv b, hd.symm⟩

/-- Claim C8: for a pointer-typed merge node, induction classification
succeeds only when the symbolic step is a compile-time constant whose byte
value is an exact multiple of the pointee's storage size, with the pointee
sized and of non-zero size; the reported step is the quotient of the byte
step by the storage size. -/
theorem claim_C8_ptr_induction (p : Program) (phiId : Nat) (L : LoopInfo)
    (se : SEOracle) (expr : Option SCEVExpr) (casts : List Nat)
    (phiI : Instruction) (sized : Bool) (asize : Nat)
    (D : InductionDescriptorR)
    (hphi : p.instOf phiId = some phiI)
    (hty : phiI.ty = .ptrT sized asize)
    (hD : isInductionPHIse p phiId L se expr casts = some D) :
    D.ik = .ptrInduction ∧ sized = true ∧ asize ≠ 0 ∧
    ∃ cv : Int, usedScev se expr phiId = .addRec L.header (.constE cv) ∧
      (asize : Int) ∣ cv ∧ D.step = .constE (cv.tdiv (asize : Int)) := by
  simp only [isInductionPHIse, hphi, hty, LLVMType.isIntegerTy,
    LLVMType.isPointerTy, Bool.not_false, Bool.not_true, Bool.false_and,
    Bool.and_false, Bool.false_eq_true, if_false] at hD
  cases hscev : usedScev se expr phiId with
  | constE v => rw [hscev] at hD; exact absurd hD (by simp)
  | unknownE t => rw [hscev] at hD; exact absurd hD (by simp)
  | addRec arLoop step =>
    simp only [hscev] at hD
    split at hD
    · exact absurd hD (by simp)
    · rename_i hloop
      split at hD
      · exact absurd hD (by simp)
      · rename_i lt hlt
        split at hD
        · exact absurd hD (by simp)
        · split at hD
          · exact absurd hD (by simp)
          · rename_i cv hcv
            split at hD
            · exact absurd hD (by simp)
            · rename_i hsized
              split at hD
              · exact absurd hD (by simp)
              · rename_i hsz
                split at hD
                · exact absurd hD (by simp)
                · rename_i htmod
                  injection hD with hD
                  subst hD
                  refine ⟨rfl, by simpa using hsized, ?_, cv, ?_, ?_, rfl⟩
                  · intro h0
                    exact hsz (by simp [h0])
                  · have harl : arLoop = L.header := by simpa using hloop
                    cases step with
                    | constE v =>
                      simp only [scevConst, Option.some.injEq] at hcv
                      rw [harl, hcv]
                    | addRec a b => exact absurd hcv (by simp [scevConst])
                    | unknownE t => exact absurd hcv (by simp [scevConst])
                  · exact dvd_of_tmod_eq_zero (by simpa using htmod)

/-- Claim C8 witness: a byte step of 8 over a pointee of size 4 reports
the element stride 2. -/
theorem claim_C8_witness :
    ∃ D, isInductionPHIse exPtr 1 exLoop {} (some (.addRec 1 (.constE 8))) [] =
        some D ∧
      D.ik = .ptrInduction ∧ (4 : Int) ∣ 8 ∧
      D.step = .constE ((8 : Int).tdiv 4) ∧ D.step = .constE 2 := by
  obtain ⟨h1, -, -, cv, hs, hdvd, hq⟩ :=
    claim_C8_ptr_induction exPtr 1 exLoop {} (some (.addRec 1 (.constE 8))) []
      { opcode := .phi, ty := .ptrT true 4,
        operands := [.arg (.ptrT true 4) 0, .inst 2],
        parent := 1, incomingBlocks := [0, 1] } true 4
      ⟨some (.arg (.ptrT true 4) 0), .ptrInduction, .constE 2, none, []⟩
      rfl rfl rfl
  have hcv : cv = 8 := by
    simp only [usedScev] at hs
    injection hs with h1 h2
    injection h2 with h3
    exact h3.symm
  subst hcv
  exact ⟨⟨some (.arg (.ptrT true 4) 0), .ptrInduction, .constE 2, none, []⟩,
         rfl, h1, hdvd, hq, rfl⟩

/-- The ordered-reduction check, characterized. -/
theorem checkOrderedReduction_iff (p : Program) (kind : RecurKind)
    (efp : Option Nat) (exitId phiId : Nat) :
    checkOrderedReduction p kind efp exitId phiId = true ↔
      (kind = .fadd ∧
       ∃ ei, p.instOf exitId = some ei ∧ ei.opcode = .fadd ∧
         efp = some exitId ∧
         (ei.operands.getD 0 (.constInt .voidT 0) = .inst phiId ∨
          ei.operands.getD 1 (.constInt .voidT 0) = .inst phiId)) := by
  constructor
  · intro h
    unfold checkOrderedReduction at h
    split at h
    · exact absurd h (by simp)
    · rename_i hk
      split at h
      · exact absurd h (by simp)
      · rename_i ei hei
        split at h
        · exact absurd h (by simp)
        · rename_i hop
          split at h
          · exact absurd h (by simp)
          · rename_i hops
            simp only [Bool.not_eq_true, Bool.or_eq_false_iff, bne_eq_false_iff_eq]
              at hk hop
            simp only [Bool.not_eq_true, Bool.and_eq_false_iff,
              bne_eq_false_iff_eq] at hops
            exact ⟨by simpa using hk, ei, hei, hop.1, hop.2,
                   by rcases hops with h1 | h1 <;> simp_all⟩
  · rintro ⟨hk, ei, hei, hop, hefp, hphi⟩
    subst hk
    rcases hphi with h1 | h1 <;> simp [checkOrderedReduction, hei, hop, hefp] <;>
      simp at h1 <;> [exact Or.inl h1; exact Or.inr h1]

/-- Claim C3: a successful reduction match sets the descriptor's ordered
flag to true if and only if the (final) kind is FAdd, the exit
instruction's opcode is FAdd, the exit instruction equals the recorded
exact-fp-math instruction, and the merge node is one of the exit
instruction's two operands. -/
theorem claim_C3_ordered_flag (p : Program) (phiId : Nat) (kind : RecurKind)
    (L : LoopInfo) (fmf : FastMathFlags) (o : RecurOracles)
    (d : RecurrenceDescriptorR)
    (h : AddReductionVar p phiId kind L fmf o = some d) :
    (d.isOrdered = true ↔
      (d.kind = .fadd ∧
       ∃ ei, p.instOf d.loopExitInstr = some ei ∧ ei.opcode = .fadd ∧
         d.exactFPMathInst = some d.loopExitInstr ∧
         (ei.operands.getD 0 (.constInt .voidT 0) = .inst phiId ∨
          ei.operands.getD 1 (.constInt .voidT 0) = .inst phiId))) := by
  obtain ⟨c, st0, recTy, casts0, st, hinit, hrun, hfin⟩ := AddReductionVar_some_inv h
  obtain ⟨hcp, hcphi, -, -, -, -, -, -, -⟩ := addRedInit_some_inv hinit
  obtain ⟨hexit, hdk, hdefp, hord, -, -, -, -, -⟩ := addRedFinish_some_inv hfin
  rw [hord, hcp, hcphi, ← hdk, ← hdefp]
  exact checkOrderedReduction_iff p d.kind d.exactFPMathInst d.loopExitInstr phiId

/-- Claim C3 witness: the canonical strict `fadd` accumulation is
reported ordered. -/
theorem claim_C3_witness :
    AddReductionVar exFAddOrd 1 .fadd exLoop {} {} =
      some ⟨some (.constFP .doubleT 0), 2, .fadd,
            ⟨false, false, false, false, false, false, false⟩, some 2,
            .doubleT, false, true, []⟩ ∧
    (⟨some (.constFP .doubleT 0), 2, .fadd,
      ⟨false, false, false, false, false, false, false⟩, some 2,
      .doubleT, false, true, []⟩ : RecurrenceDescriptorR).isOrdered = true := by
  refine ⟨rfl, ?_⟩
  exact (claim_C3_ordered_flag exFAddOrd 1 .fadd exLoop {} {} _ rfl).mpr
    ⟨rfl, { opcode := .fadd, ty := .doubleT,
            operands := [.inst 1, .arg .doubleT 0], parent := 1 },
     rfl, rfl, rfl, Or.inl rfl⟩

/-- A final state with a min/max kind but a pattern-instruction count
other than two is rejected. -/
theorem addRedFinish_count_fail {c : RedCtx} {o : RecurOracles}
    {recTy : LLVMType} {casts0 : List Nat} {st : RedState}
    (hk : isMinMaxRecurrenceKind st.kind = true)
    (hn : st.numCmpSelectPatternInst ≠ 2) :
    addRedFinish c o recTy casts0 st = none := by
  unfold addRedFinish
  rw [if_pos (by simp [hk, hn])]

/-- Claim C5: with a min/max kind, every worklist step adds to the
compare/select pattern count exactly the source's increment (one for each
compare or select popped under the matching min/max kind class), and the
overall match succeeds only when the final count is exactly two; any other
final count is rejected. -/
theorem claim_C5_minmax_count (p : Program) (phiId : Nat) (kind : RecurKind)
    (L : LoopInfo) (fmf : FastMathFlags) (o : RecurOracles) :
    (∀ (c : RedCtx) (cur : Nat) (st st' : RedState),
       redStep c cur st = some st' →
       ∃ curI, c.p.instOf cur = some curI ∧
         st'.numCmpSelectPatternInst =
           st.numCmpSelectPatternInst + cmpSelIncr st'.kind curI.opcode) ∧
    (∀ d, AddReductionVar p phiId kind L fmf o = some d →
       isMinMaxRecurrenceKind d.kind = true →
       ∃ c st0 recTy casts0 st,
         addRedInit p phiId kind L fmf = some (c, st0, recTy, casts0) ∧
         runRed c (p.insts.length + 1) st0 = some st ∧
         st.numCmpSelectPatternInst = 2 ∧ st.kind = d.kind) ∧
    (∀ (c : RedCtx) (o2 : RecurOracles) (recTy : LLVMType)
       (casts0 : List Nat) (st : RedState),
       isMinMaxRecurrenceKind st.kind = true →
       st.numCmpSelectPatternInst ≠ 2 →
       addRedFinish c o2 recTy casts0 st = none) := by
  refine ⟨?_, ?_, fun c o2 recTy casts0 st hk hn => addRedFinish_count_fail hk hn⟩
  · intro c cur st st' h
    obtain ⟨curI, k1, rd1, f1, acc, hI, hcl, hacc, hst⟩ := redStep_some_inv h
    subst hst
    exact ⟨curI, hI, rfl⟩
  · intro d h hk
    obtain ⟨c, st0, recTy, casts0, st, hinit, hrun, hfin⟩ := AddReductionVar_some_inv h
    obtain ⟨hexit, hdk, -, -, -, -, hcount, -, -⟩ := addRedFinish_some_inv hfin
    exact ⟨c, st0, recTy, casts0, st, hinit, hrun,
           hcount (by rw [← hdk]; exact hk), hdk.symm⟩

/-- Claim C5 witness: the signed-max idiom finishes its traversal with a
pattern count of exactly two. -/
theorem claim_C5_witness :
    ∃ c st0 recTy casts0 st,
      addRedInit exSMax 1 .smax exLoop {} = some (c, st0, recTy, casts0) ∧
      runRed c (exSMax.insts.length + 1) st0 = some st ∧
      st.numCmpSelectPatternInst = 2 ∧ st.kind = RecurKind.smax := by
  obtain ⟨c, st0, recTy, casts0, st, h1, h2, h3, h4⟩ :=
    (claim_C5_minmax_count exSMax 1 .smax exLoop {} {}).2.1
      ⟨some (.constInt (.intT 32) 0), 3, .smax, FastMathFlags.getFast, none,
       .intT 32, false, false, []⟩ rfl (by decide)
  exact ⟨c, st0, recTy, casts0, st, h1, h2, h3, h4⟩

/-- Does this user sit outside the loop? -/
def outsideUser (c : RedCtx) (ui : Nat) : Bool :=
  match c.p.instOf ui with
  | some uii => !c.loop.containsBlock uii.parent
  | none => false

/-- An in-loop user never changes the exit candidate. -/
theorem processUser_inloop {c : RedCtx} {kind : RecurKind} {cur ui : Nat}
    {acc acc' : UserAcc} (hin : outsideUser c ui = false)
    (h : processUser c kind cur ui acc = some acc') :
    acc'.exitInstruction = acc.exitInstruction := by
  unfold processUser at h
  split at h
  · exact absurd h (by simp)
  · rename_i uii hui
    simp only [outsideUser, hui] at hin
    rw [hin] at h
    rw [if_neg (by simp)] at h
    split at h
    · cases h; rfl
    · split at h
      · exact absurd h (by simp)
      · cases h; rfl

/-- A successful scan of an out-of-loop user either repeats the current
exit candidate or installs the popped instruction as the first one. -/
theorem processUser_outside_some {c : RedCtx} {kind : RecurKind}
    {cur ui : Nat} {acc acc' : UserAcc} (hout : outsideUser c ui = true)
    (h : processUser c kind cur ui acc = some acc') :
    (acc.exitInstruction = some cur ∧ acc' = acc) ∨
    (acc.exitInstruction = none ∧ cur ≠ c.phiId ∧
     c.phiOps.contains (LLVMValue.inst cur) = true ∧
     acc' = { acc with exitInstruction := some cur }) := by
  unfold processUser at h
  split at h
  · exact absurd h (by simp)
  · rename_i uii hui
    unfold outsideUser at hout
    rw [hui] at hout
    rw [if_pos hout] at h
    split at h
    · rename_i he
      exact Or.inl ⟨by simpa using he, (Option.some.inj h).symm⟩
    · split at h
      · exact absurd h (by simp)
      · rename_i hno
        split at h
        · exact absurd h (by simp)
        · rename_i hmem
          simp only [Bool.not_eq_true, Bool.or_eq_false_iff] at hno
          refine Or.inr ⟨by simpa using hno.1, by simpa using hno.2,
                         by simpa using hmem, (Option.some.inj h).symm⟩

/-- An out-of-loop user of an instruction other than the recorded exit
candidate makes the scan fail. -/
theorem processUser_outside_fail_second {c : RedCtx} {kind : RecurKind}
    {cur ui e : Nat} {acc : UserAcc} (hout : outsideUser c ui = true)
    (hexit : acc.exitInstruction = some e) (hne : e ≠ cur) :
    processUser c kind cur ui acc = none := by
  unfold processUser
  unfold outsideUser at hout
  split at hout
  · rename_i uii hui
    simp only [hui]
    rw [if_pos hout]
    rw [if_neg (by simp [hexit]; exact fun hc => hne (by simpa using hc))]
    rw [if_pos (by simp [hexit])]
  · exact absurd hout (by simp)

/-- An out-of-loop user of the merge node itself makes the scan fail when
no exit candidate is recorded. -/
theorem processUser_outside_fail_phi {c : RedCtx} {kind : RecurKind}
    {ui : Nat} {acc : UserAcc} (hout : outsideUser c ui = true)
    (hexit : acc.exitInstruction = none) :
    processUser c kind c.phiId ui acc = none := by
  unfold processUser
  unfold outsideUser at hout
  split at hout
  · rename_i uii hui
    simp only [hui]
    rw [if_pos hout]
    rw [if_neg (by simp [hexit])]
    rw [if_pos (by simp)]
  · exact absurd hout (by simp)

/-- Exit evolution of one user scan. -/
theorem processUser_exit_evolve {c : RedCtx} {kind : RecurKind}
    {cur ui : Nat} {acc acc' : UserAcc}
    (h : processUser c kind cur ui acc = some acc') :
    acc'.exitInstruction = acc.exitInstruction ∨
    (acc.exitInstruction = none ∧ acc'.exitInstruction = some cur ∧
     cur ≠ c.phiId ∧ c.phiOps.contains (LLVMValue.inst cur) = true) := by
  cases hout : outsideUser c ui with
  | false => exact Or.inl (processUser_inloop hout h)
  | true =>
    rcases processUser_outside_some hout h with ⟨he, rfl⟩ | ⟨he, hne, hmem, rfl⟩
    · exact Or.inl rfl
    · exact Or.inr ⟨he, rfl, hne, hmem⟩

/-- Exit evolution of a whole user scan. -/
theorem processUsers_exit_evolve {c : RedCtx} {kind : RecurKind} {cur : Nat} :
    ∀ (uis : List Nat) (acc acc' : UserAcc),
      processUsers c kind cur uis acc = some acc' →
      acc'.exitInstruction = acc.exitInstruction ∨
      (acc.exitInstruction = none ∧ acc'.exitInstruction = some cur ∧
       cur ≠ c.phiId ∧ c.phiOps.contains (LLVMValue.inst cur) = true) := by
  intro uis
  induction uis with
  | nil => intro acc acc' h; cases h; exact Or.inl rfl
  | cons ui rest ih =>
    intro acc acc' h
    unfold processUsers at h
    split at h
    · exact absurd h (by simp)
    · rename_i acc1 hpu
      rcases processUser_exit_evolve hpu with h1 | ⟨h1, h2, h3, h4⟩
      · rcases ih acc1 acc' h with h5 | ⟨h5, h6, h7, h8⟩
        · exact Or.inl (h5.trans h1)
        · exact Or.inr ⟨h1 ▸ h5, h6, h7, h8⟩
      · rcases ih acc1 acc' h with h5 | ⟨h5, h6, h7, h8⟩
        · exact Or.inr ⟨h1, h5.trans h2, h3, h4⟩
        · rw [h2] at h5; exact absurd h5 (by simp)

/-- With no out-of-loop user, the whole scan preserves the exit. -/
theorem processUsers_all_inloop {c : RedCtx} {kind : RecurKind} {cur : Nat} :
    ∀ (uis : List Nat) (acc acc' : UserAcc),
      (∀ ui ∈ uis, outsideUser c ui = false) →
      processUsers c kind cur uis acc = some acc' →
      acc'.exitInstruction = acc.exitInstruction := by
  intro uis
  induction uis with
  | nil => intro acc acc' _ h; cases h; rfl
  | cons ui rest ih =>
    intro acc acc' hall h
    unfold processUsers at h
    split at h
    · exact absurd h (by simp)
    · rename_i acc1 hpu
      rw [ih acc1 acc' (fun u hu => hall u (List.mem_cons_of_mem _ hu)) h]
      exact processUser_inloop (hall ui (List.mem_cons_self _ _)) hpu

/-- Once the popped instruction is the exit candidate, it stays so. -/
theorem processUsers_exit_stays {c : RedCtx} {kind : RecurKind} {cur : Nat} :
    ∀ (uis : List Nat) (acc acc' : UserAcc),
      acc.exitInstruction = some cur →
      processUsers c kind cur uis acc = some acc' →
      acc'.exitInstruction = some cur := by
  intro uis
  induction uis with
  | nil => intro acc acc' he h; cases h; exact he
  | cons ui rest ih =>
    intro acc acc' he h
    unfold processUsers at h
    split at h
    · exact absurd h (by simp)
    · rename_i acc1 hpu
      rcases processUser_exit_evolve hpu with h1 | ⟨h1, -, -, -⟩
      · exact ih acc1 acc' (h1.trans he) h
      · rw [he] at h1; exact absurd h1 (by simp)

/-- With no exit candidate yet and some out-of-loop user, a successful
scan installs the popped instruction as the exit candidate. -/
theorem processUsers_outside_sets {c : RedCtx} {kind : RecurKind} {cur : Nat} :
    ∀ (uis : List Nat) (acc acc' : UserAcc),
      acc.exitInstruction = none →
      (∃ ui ∈ uis, outsideUser c ui = true) →
      processUsers c kind cur uis acc = some acc' →
      acc'.exitInstruction = some cur := by
  intro uis
  induction uis with
  | nil => intro acc acc' _ hex _; rcases hex with ⟨u, hu, -⟩; cases hu
  | cons ui rest ih =>
    intro acc acc' he hex h
    unfold processUsers at h
    split at h
    · exact absurd h (by simp)
    · rename_i acc1 hpu
      cases hout : outsideUser c ui with
      | true =>
        rcases processUser_outside_some hout hpu with ⟨h1, rfl⟩ | ⟨-, -, -, rfl⟩
        · rw [he] at h1; exact absurd h1 (by simp)
        · exact processUsers_exit_stays rest _ acc' rfl h
      | false =>
        rcases hex with ⟨u, hu, huo⟩
        rcases List.mem_cons.mp hu with rfl | hu
        · exact absurd huo (by simp [hout])
        · exact ih acc1 acc' ((processUser_inloop hout hpu).trans he)
            ⟨u, hu, huo⟩ h

/-- A second distinct instruction with an out-of-loop user makes the
whole scan fail. -/
theorem processUsers_second_exit_fails {c : RedCtx} {kind : RecurKind}
    {cur : Nat} :
    ∀ (uis : List Nat) (acc : UserAcc) (e : Nat),
      acc.exitInstruction = some e → e ≠ cur →
      (∃ ui ∈ uis, outsideUser c ui = true) →
      processUsers c kind cur uis acc = none := by
  intro uis
  induction uis with
  | nil => intro acc e _ _ hex; rcases hex with ⟨u, hu, -⟩; cases hu
  | cons ui rest ih =>
    intro acc e he hne hex
    unfold processUsers
    cases hout : outsideUser c ui with
    | true => rw [processUser_outside_fail_second hout he hne]
    | false =>
      split
      · rfl
      · rename_i acc1 hpu
        rcases hex with ⟨u, hu, huo⟩
        rcases List.mem_cons.mp hu with rfl | hu
        · exact absurd huo (by simp [hout])
        · exact ih acc1 e ((processUser_inloop hout hpu).trans he) hne ⟨u, hu, huo⟩

/-- An out-of-loop user of the merge node itself makes the whole scan
fail when no exit candidate exists. -/
theorem processUsers_phi_exit_fails {c : RedCtx} {kind : RecurKind} :
    ∀ (uis : List Nat) (acc : UserAcc),
      acc.exitInstruction = none →
      (∃ ui ∈ uis, outsideUser c ui = true) →
      processUsers c kind c.phiId uis acc = none := by
  intro uis
  induction uis with
  | nil => intro acc _ hex; rcases hex with ⟨u, hu, -⟩; cases hu
  | cons ui rest ih =>
    intro acc he hex
    unfold processUsers
    cases hout : outsideUser c ui with
    | true => rw [processUser_outside_fail_phi hout he]
    | false =>
      split
      · rfl
      · rename_i acc1 hpu
        rcases hex with ⟨u, hu, huo⟩
        rcases List.mem_cons.mp hu with rfl | hu
        · exact absurd huo (by simp [hout])
        · exact ih acc1 ((processUser_inloop hout hpu).trans he) ⟨u, hu, huo⟩

/-- Exit evolution of one worklist step. -/
theorem redStep_exit_evolve {c : RedCtx} {cur : Nat} {st st' : RedState}
    (h : redStep c cur st = some st') :
    st'.exitInstruction = st.exitInstruction ∨
    (st.exitInstruction = none ∧ st'.exitInstruction = some cur ∧
     cur ≠ c.phiId ∧ c.phiOps.contains (LLVMValue.inst cur) = true) := by
  obtain ⟨curI, k1, rd1, f1, acc, hI, hcl, hacc, hst⟩ := redStep_some_inv h
  subst hst
  exact processUsers_exit_evolve _ _ _ hacc

/-- The worklist runner keeps a legitimate exit candidate. -/
theorem runRed_exit_inv {c : RedCtx} :
    ∀ (fuel : Nat) (st st' : RedState),
      (st.exitInstruction = none ∨
       ∃ e, st.exitInstruction = some e ∧ e ≠ c.phiId ∧
         c.phiOps.contains (LLVMValue.inst e) = true) →
      runRed c fuel st = some st' →
      (st'.exitInstruction = none ∨
       ∃ e, st'.exitInstruction = some e ∧ e ≠ c.phiId ∧
         c.phiOps.contains (LLVMValue.inst e) = true) := by
  intro fuel
  induction fuel with
  | zero =>
    intro st st' hinv h
    unfold runRed at h
    split at h
    · cases h; exact hinv
    · exact absurd h (by simp)
  | succ n ih =>
    intro st st' hinv h
    rcases hwl : st.worklist with _ | ⟨cur, rest⟩
    · simp only [runRed, hwl] at h
      cases h; exact hinv
    · simp only [runRed, hwl] at h
      split at h
      · exact absurd h (by simp)
      · rename_i st1 hstep
        refine ih st1 st' ?_ h
        rcases redStep_exit_evolve hstep with h1 | ⟨-, h2, h3, h4⟩
        · rw [h1]; exact hinv
        · exact Or.inr ⟨cur, h2, h3, h4⟩

/-- Claim C2: during the reduction matcher's worklist traversal the first
loop-internal popped instruction found to have a user outside the loop
becomes the unique exit candidate (and must be a non-merge operand of the
merge node); a second distinct instruction with an outside user fails, the
merge node itself having an outside user fails, steps without outside
users never change the candidate, and an overall match reports an exit
instruction that is a non-merge-node operand of the merge node. -/
theorem claim_C2_exit_discipline (p : Program) (phiId : Nat)
    (kind : RecurKind) (L : LoopInfo) (fmf : FastMathFlags)
    (o : RecurOracles) :
    (∀ (c : RedCtx) (cur : Nat) (st st' : RedState),
       redStep c cur st = some st' →
       (∀ ui ∈ c.p.users cur, outsideUser c ui = false) →
       st'.exitInstruction = st.exitInstruction) ∧
    (∀ (c : RedCtx) (cur : Nat) (st st' : RedState),
       redStep c cur st = some st' →
       st.exitInstruction = none →
       (∃ ui ∈ c.p.users cur, outsideUser c ui = true) →
       st'.exitInstruction = some cur ∧ cur ≠ c.phiId ∧
       c.phiOps.contains (LLVMValue.inst cur) = true) ∧
    (∀ (c : RedCtx) (cur : Nat) (st : RedState) (e : Nat),
       st.exitInstruction = some e → e ≠ cur →
       (∃ ui ∈ c.p.users cur, outsideUser c ui = true) →
       redStep c cur st = none) ∧
    (∀ (c : RedCtx) (st : RedState),
       st.exitInstruction = none →
       (∃ ui ∈ c.p.users c.phiId, outsideUser c ui = true) →
       redStep c c.phiId st = none) ∧
    (∀ d, AddReductionVar p phiId kind L fmf o = some d →
       d.loopExitInstr ≠ phiId ∧
       ∃ phiI, p.instOf phiId = some phiI ∧
         phiI.operands.contains (LLVMValue.inst d.loopExitInstr) = true) := by
  refine ⟨?_, ?_, ?_, ?_, ?_⟩
  · intro c cur st st' h hall
    obtain ⟨curI, k1, rd1, f1, acc, hI, hcl, hacc, hst⟩ := redStep_some_inv h
    subst hst
    exact processUsers_all_inloop _ _ _ hall hacc
  · intro c cur st st' h he hex
    obtain ⟨curI, k1, rd1, f1, acc, hI, hcl, hacc, hst⟩ := redStep_some_inv h
    subst hst
    have hset : acc.exitInstruction = some cur :=
      processUsers_outside_sets _ _ _ he hex hacc
    rcases processUsers_exit_evolve _ _ _ hacc with h1 | ⟨-, -, h3, h4⟩
    · rw [hset] at h1
      rw [he] at h1
      exact absurd h1 (by simp)
    · exact ⟨hset, h3, h4⟩
  · intro c cur st e he hne hex
    cases hr : redStep c cur st with
    | none => rfl
    | some st' =>
      obtain ⟨curI, k1, rd1, f1, acc, hI, hcl, hacc, hst⟩ := redStep_some_inv hr
      rw [processUsers_second_exit_fails _ _ e he hne hex] at hacc
      exact absurd hacc (by simp)
  · intro c st he hex
    cases hr : redStep c c.phiId st with
    | none => rfl
    | some st' =>
      obtain ⟨curI, k1, rd1, f1, acc, hI, hcl, hacc, hst⟩ := redStep_some_inv hr
      rw [processUsers_phi_exit_fails _ _ he hex] at hacc
      exact absurd hacc (by simp)
  · intro d h
    obtain ⟨c, st0, recTy, casts0, st, hinit, hrun, hfin⟩ :=
      AddReductionVar_some_inv h
    obtain ⟨hcp, hcphi, -, -, -, hst0e, -, -, phiI, hphiI, hops, -⟩ :=
      addRedInit_some_inv hinit
    obtain ⟨hexit, -, -, -, -, -, -, -, -⟩ := addRedFinish_some_inv hfin
    rcases runRed_exit_inv _ st0 st (Or.inl hst0e) hrun with h1 | ⟨e, h1, h2, h3⟩
    · rw [hexit] at h1; exact absurd h1 (by simp)
    · rw [hexit] at h1
      have he : e = d.loopExitInstr := by simpa using h1.symm
      subst he
      rw [hcphi] at h2
      rw [hops] at h3
      exact ⟨h2, phiI, hphiI, h3⟩

/-- Claim C2 witness: in the canonical add reduction, the reported exit
instruction is the add, which is an operand of the merge node and not the
merge node itself. -/
theorem claim_C2_witness :
    (2 : Nat) ≠ 1 ∧
    ∃ phiI, exAdd.instOf 1 = some phiI ∧
      phiI.operands.contains (LLVMValue.inst 2) = true := by
  have h := (claim_C2_exit_discipline exAdd 1 .add exLoop
      (fnAttrFMF ⟨false, false⟩) {}).2.2.2.2
    ⟨some (.constInt (.intT 32) 0), 2, .add, FastMathFlags.getFast, none,
     .intT 32, false, false, []⟩ rfl
  exact h

/-- Under a floating min/max kind with either fast-math condition absent,
only a phi can classify as a recurrence instruction, and it preserves the
previous state. -/
theorem isRecurrenceInstr_fpminmax_noflags {p : Program} {iid : Nat}
    {kind : RecurKind} {prev : InstDesc} {fmf : FastMathFlags}
    (hk : isFPMinMaxRecurrenceKind kind = true)
    (hf : fmf.noNaNs = false ∨ fmf.noSignedZeros = false)
    (hrec : (isRecurrenceInstr p iid kind prev fmf).isRecurrence = true) :
    ∃ ii, p.instOf iid = some ii ∧ ii.opcode = .phi ∧
      isRecurrenceInstr p iid kind prev fmf =
        ⟨true, some iid, prev.recKind, prev.exactFPMathInst⟩ := by
  have hkk : kind = .fmin ∨ kind = .fmax := by
    cases kind <;> simp_all [isFPMinMaxRecurrenceKind]
  rcases hp : p.instOf iid with _ | ii
  · simp only [isRecurrenceInstr, hp] at hrec
    simp at hrec
  · refine ⟨ii, rfl, ?_⟩
    simp only [isRecurrenceInstr, hp] at hrec ⊢
    rcases hkk with hkk | hkk <;> subst hkk <;>
      rcases hf with hf | hf <;>
        cases hop : ii.opcode <;>
          simp_all [isIntMinMaxRecurrenceKind, isFPMinMaxRecurrenceKind]

/-- One worklist step preserves the invariant that, under a floating
min/max kind with a fast-math condition absent, no reduction operation can
ever be found. -/
theorem redStep_fpminmax_inv {c : RedCtx} {cur : Nat} {st st' : RedState}
    (hf : c.funcFMF.noNaNs = false ∨ c.funcFMF.noSignedZeros = false)
    (hk : isFPMinMaxRecurrenceKind st.kind = true)
    (hrd : st.reduxDesc.recKind = RecurKind.none)
    (hfr : st.foundReduxOp = false)
    (h : redStep c cur st = some st') :
    isFPMinMaxRecurrenceKind st'.kind = true ∧
    st'.reduxDesc.recKind = RecurKind.none ∧
    st'.foundReduxOp = false := by
  obtain ⟨curI, k1, rd1, f1, acc, hI, hcl, hacc, hst⟩ := redStep_some_inv h
  subst hst
  by_cases hcs : cur = c.startId
  · subst hcs
    rw [redClassify_start] at hcl
    simp only [Option.some.injEq, Prod.mk.injEq] at hcl
    obtain ⟨hk1, hrd1, -⟩ := hcl
    subst hk1
    subst hrd1
    simp only
    refine ⟨hk, hrd, ?_⟩
    simp [hfr]
  · obtain ⟨hrd1, hrec1, hk1⟩ := redClassify_some_inv hcl hcs
    rw [hrd1] at hrec1
    obtain ⟨ii, hii, hphi, heq⟩ := isRecurrenceInstr_fpminmax_noflags hk hf hrec1
    have hiieq : ii = curI := by
      rw [hI] at hii
      exact (Option.some.inj hii).symm
    subst hiieq
    rw [heq] at hrd1
    refine ⟨?_, ?_, ?_⟩
    · simp only
      rw [hk1, hrd1, hrd]
      simpa using hk
    · simp only
      rw [hrd1]
      exact hrd
    · simp only
      rw [hphi]
      simp [hfr]

/-- The runner preserves the no-reduction-operation invariant. -/
theorem runRed_fpminmax_inv {c : RedCtx}
    (hf : c.funcFMF.noNaNs = false ∨ c.funcFMF.noSignedZeros = false) :
    ∀ (fuel : Nat) (st st' : RedState),
      isFPMinMaxRecurrenceKind st.kind = true →
      st.reduxDesc.recKind = RecurKind.none →
      st.foundReduxOp = false →
      runRed c fuel st = some st' →
      st'.foundReduxOp = false := by
  intro fuel
  induction fuel with
  | zero =>
    intro st st' _ _ hfr h
    unfold runRed at h
    split at h
    · cases h; exact hfr
    · exact absurd h (by simp)
  | succ n ih =>
    intro st st' hk hrd hfr h
    rcases hwl : st.worklist with _ | ⟨cur, rest⟩
    · simp only [runRed, hwl] at h
      cases h; exact hfr
    · simp only [runRed, hwl] at h
      split at h
      · exact absurd h (by simp)
      · rename_i st1 hstep
        obtain ⟨hk1, hrd1, hfr1⟩ := redStep_fpminmax_inv hf
          (show isFPMinMaxRecurrenceKind
            ({st with worklist := rest} : RedState).kind = true from hk)
          (show ({st with worklist := rest} : RedState).reduxDesc.recKind =
            RecurKind.none from hrd)
          (show ({st with worklist := rest} : RedState).foundReduxOp = false
            from hfr)
          hstep
        exact ih st1 st' hk1 hrd1 hfr1 h

/-- A final state in which no reduction operation was found is rejected. -/
theorem addRedFinish_noRedux {c : RedCtx} {o : RecurOracles}
    {recTy : LLVMType} {casts0 : List Nat} {st : RedState}
    (hfr : st.foundReduxOp = false) :
    addRedFinish c o recTy casts0 st = none := by
  unfold addRedFinish
  split
  · rfl
  · rw [if_pos (by simp [hfr])]

/-- With either fast-math condition absent, a floating min/max probe
always fails. -/
theorem AddReductionVar_fpminmax_noflags {p : Program} {phiId : Nat}
    {L : LoopInfo} {fmf : FastMathFlags} {o : RecurOracles}
    (hf : fmf.noNaNs = false ∨ fmf.noSignedZeros = false)
    (kind : RecurKind) (hk : isFPMinMaxRecurrenceKind kind = true) :
    AddReductionVar p phiId kind L fmf o = none := by
  unfold AddReductionVar
  split
  · rfl
  · rename_i r hinit
    obtain ⟨hcp, hcphi, hcf, -, hst0k, -, hst0fr, hst0rd, -⟩ :=
      addRedInit_some_inv hinit
    split
    · rfl
    · rename_i st hrun
      apply addRedFinish_noRedux
      refine runRed_fpminmax_inv ?_ _ _ st ?_ ?_ hst0fr hrun
      · rw [hcf]; exact hf
      · rw [hst0k]; exact hk
      · rw [hst0rd]

/-- Claim C9: an FCmp or Select classifies under an FMin/FMax kind only
when both the no-NaNs and no-signed-zeros conditions hold; the kind prober
derives those conditions from the function's `no-nans-fp-math` and
`no-signed-zeros-fp-math` attributes; and with either attribute absent the
FMin and FMax probes always fail, so the prober degenerates to the first
eleven kinds. -/
theorem claim_C9_fpminmax_needs_attrs (p : Program) (phiId : Nat)
    (L : LoopInfo) (f : LLVMFunctionAttrs) (o : RecurOracles) :
    (∀ (iid : Nat) (kind : RecurKind) (prev : InstDesc)
       (fmf : FastMathFlags) (ii : Instruction),
       p.instOf iid = some ii →
       (ii.opcode = .fcmp ∨ ii.opcode = .select) →
       isFPMinMaxRecurrenceKind kind = true →
       (isRecurrenceInstr p iid kind prev fmf).isRecurrence = true →
       fmf.noNaNs = true ∧ fmf.noSignedZeros = true) ∧
    ((fnAttrFMF f).noNaNs = f.noNaNsFPMath ∧
     (fnAttrFMF f).noSignedZeros = f.noSignedZerosFPMath) ∧
    (¬(f.noNaNsFPMath = true ∧ f.noSignedZerosFPMath = true) →
       AddReductionVar p phiId .fmin L (fnAttrFMF f) o = none ∧
       AddReductionVar p phiId .fmax L (fnAttrFMF f) o = none ∧
       isReductionPHI p phiId L f o =
         ([.add, .mul, .or, .and, .xor, .smax, .smin, .umax, .umin,
           .fmul, .fadd] : List RecurKind).findSome?
           (fun k => AddReductionVar p phiId k L (fnAttrFMF f) o)) := by
  refine ⟨?_, ⟨rfl, rfl⟩, ?_⟩
  · intro iid kind prev fmf ii hii hcs hk hrec
    by_cases hn : fmf.noNaNs = true
    · by_cases hz : fmf.noSignedZeros = true
      · exact ⟨hn, hz⟩
      · obtain ⟨ii2, hii2, hphi, -⟩ := isRecurrenceInstr_fpminmax_noflags hk
          (Or.inr (by simpa using hz)) hrec
        rw [hii] at hii2
        cases Option.some.inj hii2
        rcases hcs with hcs | hcs <;> rw [hcs] at hphi <;> cases hphi
    · obtain ⟨ii2, hii2, hphi, -⟩ := isRecurrenceInstr_fpminmax_noflags hk
        (Or.inl (by simpa using hn)) hrec
      rw [hii] at hii2
      cases Option.some.inj hii2
      rcases hcs with hcs | hcs <;> rw [hcs] at hphi <;> cases hphi
  · intro hab
    have hf : (fnAttrFMF f).noNaNs = false ∨ (fnAttrFMF f).noSignedZeros = false := by
      by_cases hn : f.noNaNsFPMath = true
      · by_cases hz : f.noSignedZerosFPMath = true
        · exact absurd ⟨hn, hz⟩ hab
        · exact Or.inr (by simpa [fnAttrFMF] using hz)
      · exact Or.inl (by simpa [fnAttrFMF] using hn)
    have hmin : AddReductionVar p phiId .fmin L (fnAttrFMF f) o = none :=
      AddReductionVar_fpminmax_noflags hf _ rfl
    have hmax : AddReductionVar p phiId .fmax L (fnAttrFMF f) o = none :=
      AddReductionVar_fpminmax_noflags hf _ rfl
    refine ⟨hmin, hmax, ?_⟩
    unfold isReductionPHI
    simp only [List.findSome?_cons, List.findSome?_nil]
    cases AddReductionVar p phiId RecurKind.add L (fnAttrFMF f) o with
    | some d => rfl
    | none =>
    cases AddReductionVar p phiId RecurKind.mul L (fnAttrFMF f) o with
    | some d => rfl
    | none =>
    cases AddReductionVar p phiId RecurKind.or L (fnAttrFMF f) o with
    | some d => rfl
    | none =>
    cases AddReductionVar p phiId RecurKind.and L (fnAttrFMF f) o with
    | some d => rfl
    | none =>
    cases AddReductionVar p phiId RecurKind.xor L (fnAttrFMF f) o with
    | some d => rfl
    | none =>
    cases AddReductionVar p phiId RecurKind.smax L (fnAttrFMF f) o with
    | some d => rfl
    | none =>
    cases AddReductionVar p phiId RecurKind.smin L (fnAttrFMF f) o with
    | some d => rfl
    | none =>
    cases AddReductionVar p phiId RecurKind.umax L (fnAttrFMF f) o with
    | some d => rfl
    | none =>
    cases AddReductionVar p phiId RecurKind.umin L (fnAttrFMF f) o with
    | some d => rfl
    | none =>
    cases AddReductionVar p phiId RecurKind.fmul L (fnAttrFMF f) o with
    | some d => rfl
    | none =>
    cases AddReductionVar p phiId RecurKind.fadd L (fnAttrFMF f) o with
    | some d => rfl
    | none => rw [hmax, hmin]

/-- Claim C9 witness: the floating-min idiom is rejected with the
no-NaNs attribute absent, and recognized with both attributes present. -/
theorem claim_C9_witness :
    AddReductionVar exFMin 1 .fmin exLoop (fnAttrFMF ⟨false, true⟩) {} = none ∧
    (isReductionPHI exFMin 1 exLoop ⟨true, true⟩ {}).isSome = true := by
  refine ⟨?_, rfl⟩
  exact ((claim_C9_fpminmax_needs_attrs exFMin 1 exLoop ⟨false, true⟩ {}).2.2
    (by simp)).1

/-- `exactLogBase2` recovers the exponent of a power of two. -/
theorem exactLogBase2_pow (n : Nat) : exactLogBase2 (2 ^ n) = some n := by
  unfold exactLogBase2
  have hsplit : 2 ^ n + 1 = (n + 1) + (2 ^ n - n) := by
    have := Nat.lt_two_pow n
    omega
  rw [hsplit, List.range_add, List.findSome?_append]
  have hrange : List.findSome?
      (fun k => if (2 ^ n == 2 ^ k) = true then some k else none)
      (List.range (n + 1)) = some n := by
    rw [List.range_succ, List.findSome?_append]
    have hnone : List.findSome?
        (fun k => if (2 ^ n == 2 ^ k) = true then some k else none)
        (List.range n) = none := by
      rw [List.findSome?_eq_none_iff]
      intro k hk
      simp only [List.mem_range] at hk
      have hne : 2 ^ n ≠ 2 ^ k := fun he =>
        absurd (Nat.pow_right_injective (le_refl 2) he) (by omega)
      simp [hne]
    rw [hnone]
    simp
  rw [hrange]
  simp

/-- Claim C4: for arithmetic integer kinds, a merge node whose single use
is a bitwise AND with a constant mask of the form `2^n - 1` makes the AND
the start-of-chain node and narrows the working recurrence type to `n`
bits; after an otherwise successful match that used this look-through, the
minimal bit width is recomputed from the exit instruction and the whole
match fails whenever the recomputed type differs from the speculatively
narrowed type. -/
theorem claim_C4_and_lookthrough (p : Program) (phiId : Nat)
    (kind : RecurKind) (L : LoopInfo) (fmf : FastMathFlags)
    (o : RecurOracles) :
    (∀ (phiI ji : Instruction) (j k n : Nat) (t : LLVMType) (m : Int),
       p.users phiId = [j] → p.instOf j = some ji → ji.opcode = .iand →
       (ji.operands = [.inst k, .constInt t m] ∨
        ji.operands = [.constInt t m, .inst k]) →
       ((m + 1).emod ((2 ^ t.sizeInBits : Nat) : Int)).toNat = 2 ^ n →
       0 < n →
       lookThroughAnd p phiId phiI = (j, .intT n, [phiId], [j])) ∧
    (∀ (c : RedCtx) (st0 : RedState) (recTy : LLVMType) (casts0 : List Nat),
       addRedInit p phiId kind L fmf = some (c, st0, recTy, casts0) →
       c.startId ≠ phiId →
       ∃ phiI, p.instOf phiId = some phiI ∧
         isArithmeticRecurrenceKind kind = true ∧
         phiI.ty.isIntegerTy = true ∧
         c.startId = (lookThroughAnd p phiId phiI).1 ∧
         recTy = (lookThroughAnd p phiId phiI).2.1) ∧
    (∀ d, AddReductionVar p phiId kind L fmf o = some d →
       ∀ (c : RedCtx) (st0 : RedState) (recTy : LLVMType) (casts0 : List Nat),
         addRedInit p phiId kind L fmf = some (c, st0, recTy, casts0) →
         c.startId ≠ phiId →
         (computeRecurrenceType p o d.loopExitInstr).1 = d.recurrenceType) ∧
    (∀ (c : RedCtx) (o2 : RecurOracles) (recTy : LLVMType)
       (casts0 : List Nat) (st : RedState) (e : Nat),
       c.startId ≠ c.phiId → st.exitInstruction = some e →
       (computeRecurrenceType c.p o2 e).1 ≠ recTy →
       addRedFinish c o2 recTy casts0 st = none) := by
  refine ⟨?_, ?_, ?_, ?_⟩
  · intro phiI ji j k n t m husers hji hjop hops hmask hn
    unfold lookThroughAnd
    rw [husers]
    simp only [hji]
    rw [if_pos (by simp [hjop])]
    rcases hops with hop | hop <;> simp only [hop] <;>
      · rw [hmask, exactLogBase2_pow]
        simp [hn]
  · intro c st0 recTy casts0 hinit hne
    obtain ⟨-, -, -, -, -, -, -, -, phiI, hphiI, -, harr⟩ :=
      addRedInit_some_inv hinit
    obtain ⟨h1, h2, h3, h4, -⟩ := harr hne
    exact ⟨phiI, hphiI, h1, h2, h3, h4⟩
  · intro d h c st0 recTy casts0 hinit hne
    obtain ⟨c2, st02, recTy2, casts02, st, hinit2, hrun, hfin⟩ :=
      AddReductionVar_some_inv h
    have heq := Option.some.inj (hinit2.symm.trans hinit)
    obtain ⟨hc, hrest⟩ := Prod.mk.injEq .. ▸ heq
    cases heq
    obtain ⟨hcp, hcphi, -, -, -, -, -, -, -⟩ := addRedInit_some_inv hinit2
    obtain ⟨-, -, -, -, -, -, -, hct, hdt⟩ := addRedFinish_some_inv hfin
    rw [hdt, ← hcp]
    exact hct (by rw [hcphi]; exact hne)
  · intro c o2 recTy casts0 st e hne hexit hdiff
    cases hr : addRedFinish c o2 recTy casts0 st with
    | none => rfl
    | some d =>
      obtain ⟨hex2, -, -, -, -, -, -, hct, -⟩ := addRedFinish_some_inv hr
      rw [hexit] at hex2
      have he : e = d.loopExitInstr := Option.some.inj hex2
      subst he
      exact absurd (hct hne) hdiff

/-- Claim C4 witness: the mask 255 narrows a 32-bit phi to 8 bits, and
the recomputed minimal type of the exit agrees. -/
theorem claim_C4_witness :
    lookThroughAnd exAnd 1
      { opcode := .phi, ty := .intT 32,
        operands := [.constInt (.intT 32) 0, .inst 3],
        parent := 1, incomingBlocks := [0, 1] } =
      (2, .intT 8, [1], [2]) ∧
    (computeRecurrenceType exAnd exAndOracles 3).1 = LLVMType.intT 8 := by
  constructor
  · exact (claim_C4_and_lookthrough exAnd 1 .add exLoop {} exAndOracles).1
      _ { opcode := .iand, ty := .intT 32,
          operands := [.inst 1, .constInt (.intT 32) 255], parent := 1 }
      2 1 8 (.intT 32) 255 rfl rfl rfl (Or.inl rfl) (by decide) (by decide)
  · exact (claim_C4_and_lookthrough exAnd 1 .add exLoop {} exAndOracles).2.2.1
      ⟨some (.constInt (.intT 32) 0), 3, .add, FastMathFlags.getFast, none,
       .intT 8, false, false, [2]⟩ rfl
      ⟨exAnd, 1, 2, exLoop, {}, [.constInt (.intT 32) 0, .inst 3], 1⟩
      ⟨none, false, false, 0, ⟨false, none, .none, none⟩, .add,
       FastMathFlags.getFast, [1, 2], [2]⟩
      (.intT 8) [2] rfl (by decide)

/-- The conditional-reduction matcher never reports an exact-fp-math
instruction. -/
theorem isConditionalRdxPattern_exact (p : Program) (kind : RecurKind)
    (iid : Nat) : (isConditionalRdxPattern p kind iid).exactFPMathInst = none := by
  unfold isConditionalRdxPattern
  repeat first
  | rfl
  | split
  | unfold_let

/-- The min/max select matcher never reports an exact-fp-math
instruction. -/
theorem isMinMaxSelectCmpPattern_exact (p : Program) (iid : Nat)
    (prev : InstDesc) :
    (isMinMaxSelectCmpPattern p iid prev).exactFPMathInst = none := by
  unfold isMinMaxSelectCmpPattern
  unfold_let
  repeat' split
  all_goals rfl

/-- Claim C6 (amended): the classifier does not keep the first
reassociation-blocking floating-point instruction. A phi forwards the
previously recorded value unchanged, but every floating-point arithmetic
instruction overwrites the field — with itself when it lacks the
allow-reassociation flag, and with nothing when it has it — and every
other classification clears the field; moreover each successful worklist
step installs the popped instruction's classification as the whole running
descriptor, so the field always reflects the most recently classified
chain instruction, not the first. -/
theorem claim_C6_fp_exact_overwrite (p : Program) (iid : Nat)
    (kind : RecurKind) (prev : InstDesc) (fmf : FastMathFlags) :
    (∀ ii : Instruction, p.instOf iid = some ii → ii.opcode = .phi →
       (isRecurrenceInstr p iid kind prev fmf).exactFPMathInst =
         prev.exactFPMathInst) ∧
    (∀ ii : Instruction, p.instOf iid = some ii →
       (ii.opcode = .fadd ∨ ii.opcode = .fsub ∨
        ii.opcode = .fmul ∨ ii.opcode = .fdiv) →
       (isRecurrenceInstr p iid kind prev fmf).exactFPMathInst =
         (if ii.fmf.allowReassoc then none else some iid)) ∧
    (∀ ii : Instruction, p.instOf iid = some ii →
       ii.opcode ≠ .phi → ii.opcode ≠ .fadd → ii.opcode ≠ .fsub →
       ii.opcode ≠ .fmul → ii.opcode ≠ .fdiv →
       (isRecurrenceInstr p iid kind prev fmf).exactFPMathInst = none) ∧
    (∀ (c : RedCtx) (cur : Nat) (st st' : RedState),
       redStep c cur st = some st' → cur ≠ c.startId →
       st'.reduxDesc =
         isRecurrenceInstr c.p cur st.kind st.reduxDesc c.funcFMF) := by
  refine ⟨?_, ?_, ?_, ?_⟩
  · intro ii hii hphi
    simp only [isRecurrenceInstr, hii, hphi]
  · intro ii hii hop
    rcases hop with h | h | h | h <;> simp only [isRecurrenceInstr, hii, h]
  · intro ii hii h1 h2 h3 h4 h5
    cases hop : ii.opcode <;>
      first
      | exact absurd hop (by assumption)
      | (simp only [isRecurrenceInstr, hii, hop] <;>
         first
         | rfl
         | (split <;>
             first
             | exact isConditionalRdxPattern_exact p kind iid
             | exact isMinMaxSelectCmpPattern_exact p iid prev
             | rfl
             | (split <;>
                 first
                 | exact isMinMaxSelectCmpPattern_exact p iid prev
                 | rfl)))
  · intro c cur st st' h hne
    obtain ⟨curI, kind1, rd1, fmf1, acc, hI, hcl, hacc, hst⟩ := redStep_some_inv h
    obtain ⟨hrd, -, -⟩ := redClassify_some_inv hcl hne
    rw [hst]
    exact hrd

/-- Claim C6, counterexample to the original wording: instruction 2 of
`exFAddTwo` is a floating add without the allow-reassociation flag and is
recorded as the exact-fp-math instruction when it is classified, but
classifying the next chain instruction (a reassociable floating add)
clears the record instead of keeping it, and the final descriptor of the
full match carries no exact-fp-math instruction. -/
theorem claim_C6_counterexample :
    (∃ ii, exFAddTwo.instOf 2 = some ii ∧ ii.opcode = Opcode.fadd ∧
       ii.fmf.allowReassoc = false) ∧
    (isRecurrenceInstr exFAddTwo 2 .fadd ⟨true, some 1, .none, none⟩
       FastMathFlags.getFast).exactFPMathInst = some 2 ∧
    (isRecurrenceInstr exFAddTwo 3 .fadd
       (isRecurrenceInstr exFAddTwo 2 .fadd ⟨true, some 1, .none, none⟩
         FastMathFlags.getFast) FastMathFlags.getFast).exactFPMathInst = none ∧
    ∃ d, AddReductionVar exFAddTwo 1 .fadd exLoop {} {} = some d ∧
      d.exactFPMathInst = none := by
  exact ⟨⟨_, rfl, rfl, rfl⟩, rfl, rfl, ⟨_, rfl, rfl⟩⟩

/-- Claim C6 witness: classifying the reassociable second floating add of
`exFAddTwo` clears the exact-fp-math record, by the amended theorem at a
concrete input. -/
theorem claim_C6_witness :
    (isRecurrenceInstr exFAddTwo 3 .fadd ⟨true, some 2, .none, some 2⟩
       FastMathFlags.getFast).exactFPMathInst = none := by
  have h := (claim_C6_fp_exact_overwrite exFAddTwo 3 .fadd
      ⟨true, some 2, .none, some 2⟩ FastMathFlags.getFast).2.1
      { opcode := .fadd, ty := .doubleT,
        operands := [.inst 2, .arg .doubleT 1], parent := 1,
        fmf := { allowReassoc := true } } rfl (Or.inl rfl)
  simpa using h

/-- Membership in an ordered insertion. -/
theorem mem_insertSorted {a b : Nat} {l : List Nat} :
    b ∈ insertSorted a l ↔ b = a ∨ b ∈ l := by
  induction l with
  | nil => simp [insertSorted]
  | cons c l ih =>
    unfold insertSorted
    split
    · simp [List.mem_cons]
    · simp only [List.mem_cons, ih]
      tauto

/-- Ordered insertion of a fresh element preserves strict sortedness. -/
theorem insertSorted_sorted {a : Nat} {l : List Nat}
    (hs : List.Sorted (· < ·) l) (ha : a ∉ l) :
    List.Sorted (· < ·) (insertSorted a l) := by
  induction l with
  | nil => simp [insertSorted]
  | cons b l ih =>
    rw [List.sorted_cons] at hs
    have hab : a ≠ b := fun h => ha (by simp [h])
    have ha' : a ∉ l := fun h => ha (List.mem_cons_of_mem b h)
    unfold insertSorted
    split
    · rename_i hlt
      rw [List.sorted_cons]
      refine ⟨?_, List.sorted_cons.mpr hs⟩
      intro x hx
      rcases List.mem_cons.mp hx with rfl | hx
      · exact hlt
      · exact Nat.lt_trans hlt (hs.1 x hx)
    · rename_i hnlt
      rw [List.sorted_cons]
      refine ⟨?_, ih hs.2 ha'⟩
      intro x hx
      rcases mem_insertSorted.mp hx with rfl | hx
      · exact Nat.lt_of_le_of_ne (Nat.le_of_not_lt hnlt) (fun h => hab h.symm)
      · exact hs.1 x hx

/-- An association-list lookup misses an appended tail when it misses
both parts. -/
theorem lookup_append_none {m : List (Nat × Nat)} {j : Nat}
    (rest : List (Nat × Nat)) (hj : m.lookup j = none)
    (hr : rest.lookup j = none) : (m ++ rest).lookup j = none := by
  induction m with
  | nil => simpa using hr
  | cons kv m ih =>
    rcases kv with ⟨k1, v1⟩
    rw [List.cons_append]
    simp only [List.lookup] at hj ⊢
    split at hj
    · exact absurd hj (by simp)
    · exact ih hj

/-- Assigning a fresh key in a `MapVector` appends the pair. -/
theorem mvSet_append {m : List (Nat × Nat)} {k v : Nat}
    (h : m.lookup k = none) : mvSet m k v = m ++ [(k, v)] := by
  induction m with
  | nil => rfl
  | cons kv m ih =>
    rcases kv with ⟨k1, v1⟩
    simp only [List.lookup] at h
    split at h
    · exact absurd h (by simp)
    · rename_i hk
      have hne : k ≠ k1 := by simpa using hk
      unfold mvSet
      rw [if_neg (by simp [Ne.symm hne])]
      rw [List.cons_append, ih h]

/-- Committing a duplicate-free schedule of fresh keys appends, in order,
each sunk instruction paired with its predecessor in the chain. -/
theorem commitSink_eq (sinkAfter : List (Nat × Nat)) (prevId : Nat)
    (toSink : List Nat)
    (hf : ∀ i ∈ toSink, sinkAfter.lookup i = none)
    (hnd : toSink.Nodup) :
    commitSink sinkAfter prevId toSink =
      sinkAfter ++ toSink.zip (prevId :: toSink) := by
  induction toSink generalizing sinkAfter prevId with
  | nil => simp [commitSink]
  | cons i rest ih =>
    obtain ⟨hni, hnd'⟩ := List.nodup_cons.mp hnd
    have hfresh : ∀ j ∈ rest, (sinkAfter ++ [(i, prevId)]).lookup j = none := by
      intro j hj
      refine lookup_append_none [(i, prevId)]
        (hf j (List.mem_cons_of_mem i hj)) ?_
      have hji : j ≠ i := fun he => hni (he ▸ hj)
      have hji' : (j == i) = false := by simpa using hji
      simp [List.lookup, hji']
    have ihh := ih (sinkAfter ++ [(i, prevId)]) i hfresh hnd'
    unfold commitSink at ihh ⊢
    simp only [List.foldl_cons]
    rw [mvSet_append (hf i (List.mem_cons_self i rest))]
    rw [ihh]
    simp [List.zip_cons_cons, List.append_assoc]

/-- Pushing one sink candidate preserves sortedness and freshness of the
tentative schedule. -/
theorem tryToPushSinkCandidate_inv {c : SinkCtx} {cand : Nat}
    {toSink wl toSink' wl' : List Nat}
    (h : tryToPushSinkCandidate c cand toSink wl = some (toSink', wl'))
    (hs : List.Sorted (· < ·) toSink)
    (hf : ∀ i ∈ toSink, c.sinkAfter.lookup i = none) :
    List.Sorted (· < ·) toSink' ∧
    ∀ i ∈ toSink', c.sinkAfter.lookup i = none := by
  unfold tryToPushSinkCandidate at h
  split at h
  · exact absurd h (by simp)
  · rename_i ci hci
    split at h
    · simp only [Option.some.injEq, Prod.mk.injEq] at h
      obtain ⟨h1, -⟩ := h
      subst h1
      exact ⟨hs, hf⟩
    · rename_i hb1
      split at h
      · exact absurd h (by simp)
      · split at h
        · simp only [Option.some.injEq, Prod.mk.injEq] at h
          obtain ⟨h1, -⟩ := h
          subst h1
          exact ⟨hs, hf⟩
        · split at h
          · exact absurd h (by simp)
          · rename_i hb4
            split at h
            · exact absurd h (by simp)
            · rename_i hb5
              split at h
              · simp only [Option.some.injEq, Prod.mk.injEq] at h
                obtain ⟨h1, -⟩ := h
                subst h1
                exact ⟨hs, hf⟩
              · simp only [Option.some.injEq, Prod.mk.injEq] at h
                obtain ⟨h1, -⟩ := h
                subst h1
                simp at hb1 hb4
                obtain ⟨⟨⟨hpar, -⟩, -⟩, -⟩ := hb4
                have hmem : cand ∉ toSink := hb1 hpar
                have hcand : c.sinkAfter.lookup cand = none := by
                  cases hcl : c.sinkAfter.lookup cand with
                  | none => rfl
                  | some v => exact absurd (by simp [hcl]) hb5
                refine ⟨insertSorted_sorted hs hmem, ?_⟩
                intro i hi
                rcases mem_insertSorted.mp hi with rfl | hi
                · exact hcand
                · exact hf i hi

/-- Pushing a list of users preserves the schedule invariants. -/
theorem sinkUsersFold_inv {c : SinkCtx} (us : List Nat) :
    ∀ (toSink wl toSink' wl' : List Nat),
      sinkUsersFold c us toSink wl = some (toSink', wl') →
      List.Sorted (· < ·) toSink →
      (∀ i ∈ toSink, c.sinkAfter.lookup i = none) →
      List.Sorted (· < ·) toSink' ∧
      ∀ i ∈ toSink', c.sinkAfter.lookup i = none := by
  induction us with
  | nil =>
    intro toSink wl toSink' wl' h hs hf
    unfold sinkUsersFold at h
    simp only [Option.some.injEq, Prod.mk.injEq] at h
    obtain ⟨h1, -⟩ := h
    subst h1
    exact ⟨hs, hf⟩
  | cons u rest ih =>
    intro toSink wl toSink' wl' h hs hf
    unfold sinkUsersFold at h
    split at h
    · exact absurd h (by simp)
    · rename_i tw htw
      obtain ⟨h1, h2⟩ := tryToPushSinkCandidate_inv
        (show tryToPushSinkCandidate c u toSink wl = some (tw.1, tw.2) from htw)
        hs hf
      exact ih tw.1 tw.2 toSink' wl' h h1 h2

/-- The sinker's worklist loop preserves the schedule invariants. -/
theorem runSink_inv {c : SinkCtx} (fuel : Nat) :
    ∀ (toSink wl toSink' : List Nat),
      runSink c fuel toSink wl = some toSink' →
      List.Sorted (· < ·) toSink →
      (∀ i ∈ toSink, c.sinkAfter.lookup i = none) →
      List.Sorted (· < ·) toSink' ∧
      ∀ i ∈ toSink', c.sinkAfter.lookup i = none := by
  induction fuel with
  | zero =>
    intro toSink wl toSink' h hs hf
    unfold runSink at h
    split at h
    · cases Option.some.inj h
      exact ⟨hs, hf⟩
    · exact absurd h (by simp)
  | succ n ih =>
    intro toSink wl toSink' h hs hf
    unfold runSink at h
    split at h
    · cases Option.some.inj h
      exact ⟨hs, hf⟩
    · rename_i cur rest
      split at h
      · exact absurd h (by simp)
      · rename_i tw htw
        obtain ⟨h1, h2⟩ := sinkUsersFold_inv (c.p.users cur) toSink rest tw.1 tw.2
          (show sinkUsersFold c (c.p.users cur) toSink rest = some (tw.1, tw.2)
           from htw) hs hf
        exact ih tw.1 tw.2 toSink' h h1 h2

/-- Every run of the first-order-recurrence sinker either fails with the
incoming map intact or succeeds with a committed schedule. -/
theorem isFirstOrderRecurrence_shape (p : Program) (phiId : Nat)
    (L : LoopInfo) (sinkAfter : List (Nat × Nat)) (dom : Nat → Nat → Bool) :
    isFirstOrderRecurrence p phiId L sinkAfter dom = (false, sinkAfter) ∨
    ∃ phiI prevId toSink,
      p.instOf phiId = some phiI ∧
      runSink ⟨p, phiId, phiI.parent, prevId, sinkAfter, dom⟩
        (p.insts.length + 1) [] [phiId] = some toSink ∧
      isFirstOrderRecurrence p phiId L sinkAfter dom =
        (true, commitSink sinkAfter prevId toSink) := by
  unfold isFirstOrderRecurrence
  repeat' first
  | exact Or.inl rfl
  | split
  all_goals exact Or.inr ⟨_, _, _, by assumption, by assumption, rfl⟩

/-- Claim C7: the first-order-recurrence sinker is atomic on failure —
whenever it returns no-match the caller-visible sink-after map is exactly
the incoming one; on success the tentatively sunk instructions, all fresh
and in strictly increasing program order, are appended to the map with
each one chained after the previously committed one starting from the
latch-supplied value; and a transitive user outside the merge node's
block, or one with side effects, a memory read, or terminator status, is
rejected by the candidate push unless it is already scheduled or
dominated. -/
theorem claim_C7_sinker_atomic (p : Program) (phiId : Nat) (L : LoopInfo)
    (sinkAfter : List (Nat × Nat)) (dom : Nat → Nat → Bool) :
    ((isFirstOrderRecurrence p phiId L sinkAfter dom).1 = false →
      (isFirstOrderRecurrence p phiId L sinkAfter dom).2 = sinkAfter) ∧
    ((isFirstOrderRecurrence p phiId L sinkAfter dom).1 = true →
      ∃ phiI prevId toSink,
        p.instOf phiId = some phiI ∧
        runSink ⟨p, phiId, phiI.parent, prevId, sinkAfter, dom⟩
          (p.insts.length + 1) [] [phiId] = some toSink ∧
        List.Sorted (· < ·) toSink ∧
        (∀ i ∈ toSink, sinkAfter.lookup i = none) ∧
        (isFirstOrderRecurrence p phiId L sinkAfter dom).2 =
          sinkAfter ++ toSink.zip (prevId :: toSink)) ∧
    (∀ (c : SinkCtx) (cand : Nat) (toSink wl : List Nat) (ci : Instruction),
       c.p.instOf cand = some ci →
       ¬(ci.parent == c.phiBB && toSink.contains cand) = true →
       cand ≠ c.previous →
       c.dom c.previous cand = false →
       (ci.parent ≠ c.phiBB ∨ ci.sideEffects = true ∨
        ci.readsMem = true ∨ ci.terminator = true) →
       tryToPushSinkCandidate c cand toSink wl = none) := by
  have hshape := isFirstOrderRecurrence_shape p phiId L sinkAfter dom
  refine ⟨?_, ?_, ?_⟩
  · intro hfail
    rcases hshape with h | ⟨phiI, prevId, toSink, hphi, hrun, h⟩
    · rw [h]
    · rw [h] at hfail
      simp at hfail
  · intro hsucc
    rcases hshape with h | ⟨phiI, prevId, toSink, hphi, hrun, h⟩
    · rw [h] at hsucc
      simp at hsucc
    · obtain ⟨hs, hf⟩ := runSink_inv (p.insts.length + 1) [] [phiId] toSink hrun
        (by simp) (by simp)
      refine ⟨phiI, prevId, toSink, hphi, hrun, hs, hf, ?_⟩
      rw [h]
      exact commitSink_eq sinkAfter prevId toSink hf
        (List.Pairwise.imp (fun hab => Nat.ne_of_lt hab) hs)
  · intro c cand toSink wl ci hci h1 h2 h3 h4
    simp only [tryToPushSinkCandidate, hci]
    rw [if_neg h1]
    rw [if_neg (by simp [h2])]
    rw [if_neg (by simp [h3])]
    have hcond : (ci.parent != c.phiBB || ci.sideEffects || ci.readsMem ||
        ci.terminator) = true := by
      rcases h4 with h | h | h | h <;> simp [h]
    rw [if_pos hcond]

/-- Claim C7 witness: over `exFOR` the sinker succeeds and the committed
map chains the sunk multiply after the latch value, while adding a memory
read (`exFORread`) makes the whole attempt fail with the incoming empty
map returned intact. -/
theorem claim_C7_witness :
    (isFirstOrderRecurrence exFORread 1 exLoop [] exDom).2 = [] ∧
    ∃ prevId toSink,
      runSink ⟨exFOR, 1, 1, prevId, [], exDom⟩ 4 [] [1] = some toSink ∧
      List.Sorted (· < ·) toSink ∧
      (isFirstOrderRecurrence exFOR 1 exLoop [] exDom).2 =
        [] ++ toSink.zip (prevId :: toSink) := by
  refine ⟨(claim_C7_sinker_atomic exFORread 1 exLoop [] exDom).1 rfl, ?_⟩
  obtain ⟨phiI, prevId, toSink, hphi, hrun, hs, hf, h⟩ :=
    (claim_C7_sinker_atomic exFOR 1 exLoop [] exDom).2.1 rfl
  have hpI : phiI =
      { opcode := .phi, ty := .intT 32,
        operands := [.constInt (.intT 32) 0, .inst 3],
        parent := 1, incomingBlocks := [0, 1] } :=
    Option.some.inj hphi.symm
  subst hpI
  exact ⟨prevId, toSink, hrun, hs, h⟩

end IVD
